import Mathlib

/-!
# Verification of the truck B-Rep kernel core

Shallow embedding, in Lean 4, of the parts of the `truck` repository that
the checked claims concern:

* the trimmed-surface tessellator
  (`truck-meshalgo/src/tessellation/triangulation.rs`),
* the solid constructor (`truck-topology/src/solid.rs`),
* the closed sweep of a vertex (`truck-modeling/src/closed_sweep.rs`),
* the edge-cut / vertex-concat operations on solids
  (`truck-topology/src/solid.rs`; their shell-level bodies are not part of
  the provided sources and are modelled from the specification, as marked).

Scalars are rationals (`ℚ`): the Rust code computes with `f64`, and every
concrete computation appearing in a theorem below is exact dyadic/rational
arithmetic, so the rational model evaluates to the same comparisons the
floating-point code performs on those inputs.

Topological handles carry an explicit numeric identity (`id`), mirroring the
Rust handles whose equality is identity equality ("Two handles are the same
entity if and only if their identities are equal").  Fresh identities are
produced by threading an explicit counter, mirroring allocation.
-/

namespace Truck

/-- 2D parameter-space point (`Point2` in the source). -/
abbrev Pt2 : Type := ℚ × ℚ

/-- 3D space point (`Point3` in the source). -/
abbrev Pt3 : Type := ℚ × ℚ × ℚ

/-- Association-list lookup keyed by numeric identity; models the
`HashMap<ID, _>` used by the tessellator. -/
def look {α : Type _} : List (Nat × α) → Nat → Option α
  | [], _ => none
  | (k, v) :: rest, i => if i = k then some v else look rest i

/-- A vertex handle: identity plus point payload (`Vertex<P>`). -/
structure Vtx (P : Type) where
  id : Nat
  pt : P
deriving DecidableEq, Repr

/-- An edge handle: identity, absolute front and back vertices, absolute
curve payload, and the orientation bit (`Edge<P, C>`).  The stored `fr`,
`bk`, `curve` are the absolute data shared by all handles to the entity;
`ori` is the per-handle orientation bit. -/
structure Edg (P C : Type) where
  id : Nat
  fr : Vtx P
  bk : Vtx P
  curve : C
  ori : Bool
deriving DecidableEq, Repr

namespace Edg

variable {P C : Type}

/-- `Edge::inverse`: shares identity and payload, flips the bit. -/
def inverse (e : Edg P C) : Edg P C := { e with ori := !e.ori }

/-- `Edge::front`: the front vertex in the handle's orientation. -/
def front (e : Edg P C) : Vtx P := if e.ori then e.fr else e.bk

/-- `Edge::back`: the back vertex in the handle's orientation. -/
def back (e : Edg P C) : Vtx P := if e.ori then e.bk else e.fr

/-- Identity of the oriented front vertex. -/
def frontId (e : Edg P C) : Nat := e.front.id

/-- Identity of the oriented back vertex. -/
def backId (e : Edg P C) : Nat := e.back.id

/-- `Edge::oriented_curve` for polyline payloads: the stored polyline,
reversed when the handle is inverted (`PolylineCurve::inverse` reverses the
point list). -/
def orientedCurve {P : Type} (e : Edg P (List P)) : List P :=
  if e.ori then e.curve else e.curve.reverse

@[simp] theorem inverse_id (e : Edg P C) : e.inverse.id = e.id := rfl
@[simp] theorem inverse_fr (e : Edg P C) : e.inverse.fr = e.fr := rfl
@[simp] theorem inverse_bk (e : Edg P C) : e.inverse.bk = e.bk := rfl
@[simp] theorem inverse_curve (e : Edg P C) : e.inverse.curve = e.curve := rfl
@[simp] theorem inverse_ori (e : Edg P C) : e.inverse.ori = !e.ori := rfl

@[simp] theorem inverse_inverse (e : Edg P C) : e.inverse.inverse = e := by
  cases e with
  | mk id fr bk curve ori => cases ori <;> rfl

end Edg

/-- A wire: ordered list of oriented edge handles (`Wire<P, C>`). -/
abbrev WireT (P C : Type) : Type := List (Edg P C)

/-- A face: absolute boundary wires, surface payload, orientation bit
(`Face<P, C, S>`).  `bnd` stores the boundaries in canonical (absolute)
orientation, as returned by `Face::absolute_boundaries`. -/
structure Fc (P C S : Type) where
  bnd : List (WireT P C)
  surface : S
  ori : Bool
deriving DecidableEq, Repr

/-- A shell: list of faces (`Shell<P, C, S>`). -/
abbrev Shl (P C S : Type) : Type := List (Fc P C S)

/-!
## Tessellator embedding

`tessellation` in `triangulation.rs` is generic over a curve type `C`
(`PolylineableCurve`) and a surface type `S` (`MeshableSurface`); the trait
methods it invokes are embedded as explicit operation records.
-/

/-- The curve trait methods used by the tessellator:
`parameter_range`, `parameter_division(range, tol)`, `subs(t)`. -/
structure CurveOps (C P : Type) where
  paramRange : C → ℚ × ℚ
  paramDiv : C → ℚ × ℚ → ℚ → List ℚ
  subs : C → ℚ → P

/-- The surface trait methods used by the boundary projection and the
parameter-grid pass: `search_parameter(pt, hint, trials)` and
`parameter_division(range, tol)`. -/
structure SurfOps (S P : Type) where
  search : S → P → Option Pt2 → Nat → Option Pt2
  paramDiv2 : S → (ℚ × ℚ) × (ℚ × ℚ) → ℚ → List ℚ × List ℚ

/-- The 3D polyline the tessellator computes for one edge:
`curve.parameter_division(curve.parameter_range(), tol)` mapped through
`curve.subs`. -/
def polyOf {C P : Type} (cops : CurveOps C P) (tol : ℚ) (e : Edg P C) : List P :=
  (cops.paramDiv e.curve (cops.paramRange e.curve) tol).map (cops.subs e.curve)

/-- State threaded through the tessellator's edge pass: the
identity-to-new-edge memo `edge_map` and the fresh-identity counter. -/
structure TessState (P : Type) where
  emap : List (Nat × Edg P (List P))
  fresh : Nat

/-- Vertex pass of `tessellation`: clone each vertex by identity into the
identity-to-new-vertex map `vmap`, assigning fresh identities
(`vertex.mapped(Point3::clone)`). -/
def buildVmapGo {P : Type} : List (Vtx P) → List (Nat × Vtx P) → Nat →
    List (Nat × Vtx P) × Nat
  | [], m, fresh => (m, fresh)
  | v :: rest, m, fresh =>
    match look m v.id with
    | some _ => buildVmapGo rest m fresh
    | none => buildVmapGo rest ((v.id, ⟨fresh, v.pt⟩) :: m) (fresh + 1)

/-- All vertex handles reachable from a shell (`shell.vertex_iter()`):
front and back of every boundary edge. -/
def shellVertices {P C S : Type} (shell : Shl P C S) : List (Vtx P) :=
  shell.flatMap fun f => f.bnd.flatMap fun w => w.flatMap fun e => [e.fr, e.bk]

/-- Edge pass of `tessellation` for one boundary-edge occurrence.

On a memo hit the stored edge is pushed, inverted unless
`edge.absolute_front() == edge.front()` (handle equality is identity
equality).  On a miss the curve is discretized, a new edge is built from the
mapped endpoints (`Edge::debug_new`, which validates nothing in release
builds), pushed inverted unless `edge.orientation()`, and memoized. -/
def processEdge {P C : Type} (cops : CurveOps C P) (tol : ℚ)
    (vmap : List (Nat × Vtx P)) (st : TessState P) (e : Edg P C) :
    TessState P × Edg P (List P) :=
  match look st.emap e.id with
  | some ne => (st, if e.fr.id = e.front.id then ne else ne.inverse)
  | none =>
    let v0 := (look vmap e.fr.id).getD ⟨0, e.fr.pt⟩
    let v1 := (look vmap e.bk.id).getD ⟨0, e.bk.pt⟩
    let ne : Edg P (List P) := ⟨st.fresh, v0, v1, polyOf cops tol e, true⟩
    (⟨(e.id, ne) :: st.emap, st.fresh + 1⟩, if e.ori then ne else ne.inverse)

/-- Edge pass over one wire, preserving edge order. -/
def processWire {P C : Type} (cops : CurveOps C P) (tol : ℚ)
    (vmap : List (Nat × Vtx P)) : TessState P → WireT P C →
    TessState P × List (Edg P (List P))
  | st, [] => (st, [])
  | st, e :: rest =>
    let (st', oe) := processEdge cops tol vmap st e
    let (st'', oes) := processWire cops tol vmap st' rest
    (st'', oe :: oes)

/-- Edge pass over all boundaries of one face. -/
def processBnds {P C : Type} (cops : CurveOps C P) (tol : ℚ)
    (vmap : List (Nat × Vtx P)) : TessState P → List (WireT P C) →
    TessState P × List (List (Edg P (List P)))
  | st, [] => (st, [])
  | st, w :: rest =>
    let (st', ow) := processWire cops tol vmap st w
    let (st'', ows) := processBnds cops tol vmap st' rest
    (st'', ow :: ows)

/-- The parameter-space boundary polyline accumulated per face
(`struct Polyline { positions, indices }`). -/
structure Polyline where
  positions : List Pt2
  indices : List (Nat × Nat)
deriving DecidableEq, Repr

/-- Componentwise difference of 2D points (`self.positions[i] - c`). -/
def sub2 (a c : Pt2) : Pt2 := (a.1 - c.1, a.2 - c.2)

/-- One step of the `try_fold` in `Polyline::include`: for the boundary edge
with endpoint indices `ij`, relative endpoints `a`, `b`, and
`x = (a₀ b₁ − a₁ b₀)(b₁ − a₁)`: abandon (`none`) when `|x| < tol` and
`a₁ b₁ < 0`; increment when `x > tol ∧ a₁ ≤ −tol ∧ b₁ > tol`; decrement when
`x > tol ∧ a₁ ≥ tol ∧ b₁ < −tol`; otherwise keep the counter. -/
def includeStep (pos : List Pt2) (c : Pt2) (tol : ℚ) (counter : Int)
    (ij : Nat × Nat) : Option Int :=
  let a := sub2 (pos.getD ij.1 (0, 0)) c
  let b := sub2 (pos.getD ij.2 (0, 0)) c
  let x := (a.1 * b.2 - a.2 * b.1) * (b.2 - a.2)
  if |x| < tol ∧ a.2 * b.2 < 0 then none
  else if x > tol ∧ a.2 ≤ -tol ∧ b.2 > tol then some (counter + 1)
  else if x > tol ∧ a.2 ≥ tol ∧ b.2 < -tol then some (counter - 1)
  else some counter

/-- The `try_fold` of `Polyline::include` over the boundary edges. -/
def includeAux (pos : List Pt2) (c : Pt2) (tol : ℚ) :
    Int → List (Nat × Nat) → Option Int
  | counter, [] => some counter
  | counter, ij :: rest =>
    match includeStep pos c tol counter ij with
    | none => none
    | some counter' => includeAux pos c tol counter' rest

/-- `Polyline::include(c, tol)`: the signed crossing counter is strictly
positive, `false` if the fold was abandoned. -/
def Polyline.include' (pl : Polyline) (c : Pt2) (tol : ℚ) : Bool :=
  match includeAux pl.positions c tol 0 pl.indices with
  | some counter => decide (counter > 0)
  | none => false

/-- One `search_parameter` lookup with fallback as performed in
`Polyline::add_wire`:
`surface.search_parameter(pt, hint, 100).or_else(|| surface.search_parameter(pt, None, 100))`. -/
def searchStep {S P : Type} (sops : SurfOps S P) (surface : S) (pt : P)
    (hint : Option Pt2) : Option Pt2 :=
  (sops.search surface pt hint 100).orElse fun _ => sops.search surface pt none 100

/-- The inner `all` of `add_wire` over one edge's points: each point is
looked up with the previous successful parameter as hint; the successful
prefix is pushed; the boolean records whether every point succeeded. -/
def projectPts {S P : Type} (sops : SurfOps S P) (surface : S) :
    List P → Option Pt2 → List Pt2 × Bool
  | [], _ => ([], true)
  | pt :: rest, hint =>
    match searchStep sops surface pt hint with
    | none => ([], false)
    | some h =>
      let (ps, ok) := projectPts sops surface rest (some h)
      (h :: ps, ok)

/-- The outer `all` of `add_wire` over the wire's edges: for each edge take
`oriented_curve`, drop its final point, and project; `counter` accumulates
the dropped-point counts of all processed edges (including a failing one),
the per-edge hint restarts at `None`, and processing stops at the first
failing edge. -/
def addWireGo {S P : Type} (sops : SurfOps S P) (surface : S) :
    List (Edg P (List P)) → List Pt2 × Nat × Bool
  | [] => ([], 0, true)
  | e :: rest =>
    let pe := e.orientedCurve.dropLast
    let (ps, ok) := projectPts sops surface pe none
    if ok then
      let (ps', n, ok') := addWireGo sops surface rest
      (ps ++ ps', pe.length + n, ok')
    else (ps, pe.length, false)

/-- `Polyline::add_wire`: append the projected points, then extend the index
list with the wire's cyclic edges `[len + i, len + (i + 1) % counter]`
(extended even when projection failed, as in the source). -/
def Polyline.addWire {S P : Type} (sops : SurfOps S P) (surface : S)
    (pl : Polyline) (w : List (Edg P (List P))) : Polyline × Bool :=
  let len := pl.positions.length
  let (ps, counter, res) := addWireGo sops surface w
  (⟨pl.positions ++ ps,
    pl.indices ++ (List.range counter).map fun i => (len + i, len + (i + 1) % counter)⟩,
   res)

/-- `wires.iter().all(|wire| polyline.add_wire(&surface, wire))`: fold the
wires into the face's polyline, stopping at the first failure. -/
def addWires {S P : Type} (sops : SurfOps S P) (surface : S) :
    Polyline → List (List (Edg P (List P))) → Polyline × Bool
  | pl, [] => (pl, true)
  | pl, w :: rest =>
    let (pl', ok) := pl.addWire sops surface w
    if ok then addWires sops surface pl' rest else (pl', false)

/-!
### Face interior filters

`trimming_tessellation` inserts the boundary into a constrained Delaunay
triangulation (the external `spade` crate, an out-of-scope collaborator),
inserts filtered parameter-grid samples, and keeps the triangles whose
centroid passes the boundary test.  The two filters are embedded standalone;
the triangulation itself enters the top-level embedding only as an opaque
`trim` argument producing the face's mesh payload.
-/

/-- Modelled from the spec and the external `truck_base` crate: the
crate-wide tolerance constant `TOLERANCE = 1.0e-7` referenced by
`insert_surface`; its definition is not under the provided sources. -/
def TOLERANCE : ℚ := 1 / 10000000

/-- The 2D axis-aligned bounding box of the boundary positions, as min/max
corner pairs `((minx, maxx), (miny, maxy))`. -/
def boundingBox2 (ps : List Pt2) : (ℚ × ℚ) × (ℚ × ℚ) :=
  match ps with
  | [] => ((0, 0), (0, 0))
  | p :: rest =>
    rest.foldl
      (fun r q => ((min r.1.1 q.1, max r.1.2 q.1), (min r.2.1 q.2, max r.2.2 q.2)))
      ((p.1, p.1), (p.2, p.2))

/-- The `(u, v)` cross-product grid of `insert_surface`:
`surface.parameter_division(range, tol)` over the boundary's bounding box. -/
def gridPoints {S : Type} (sops2 : S → (ℚ × ℚ) × (ℚ × ℚ) → ℚ → List ℚ × List ℚ)
    (surface : S) (pl : Polyline) (tol : ℚ) : List Pt2 :=
  let bdb := boundingBox2 pl.positions
  let (udiv, vdiv) := sops2 surface bdb tol
  udiv.flatMap fun u => vdiv.map fun v => (u, v)

/-- `insert_surface`: the grid samples actually inserted into the
triangulation — those passing `polyline.include(*pt, TOLERANCE)`. -/
def insertedGridPoints {S : Type}
    (sops2 : S → (ℚ × ℚ) × (ℚ × ℚ) → ℚ → List ℚ × List ℚ)
    (surface : S) (pl : Polyline) (tol : ℚ) : List Pt2 :=
  (gridPoints sops2 surface pl tol).filter fun pt => pl.include' pt TOLERANCE

/-- Centroid of a parameter-space triangle: the coordinate-wise average of
its three vertices. -/
def centroid (t : Pt2 × Pt2 × Pt2) : Pt2 :=
  ((t.1.1 + t.2.1.1 + t.2.2.1) / 3, (t.1.2 + t.2.1.2 + t.2.2.2) / 3)

/-- The triangle filter of `triangulation_into_polymesh`: a triangle is kept
iff `polyline.include(c, 0.0)` holds for its centroid `c`. -/
def keptTriangles (pl : Polyline) (tris : List (Pt2 × Pt2 × Pt2)) :
    List (Pt2 × Pt2 × Pt2) :=
  tris.filter fun t => pl.include' (centroid t) 0

/-!
### Top-level tessellation
-/

/-- The face loop of `tessellation`: run the edge pass over the face's
absolute boundaries, project the wires into the parameter-space polyline,
and either early-return `None` (the `?` operator) or emit the meshed face,
inverted when the input face's orientation bit is unset. -/
def tessFaces {P C S M : Type} (cops : CurveOps C P) (sops : SurfOps S P)
    (trim : S → Polyline → ℚ → M) (tol : ℚ) (vmap : List (Nat × Vtx P)) :
    TessState P → Shl P C S → Option (Shl P (List P) M)
  | _, [] => some []
  | st, f :: rest =>
    let (st', ws) := processBnds cops tol vmap st f.bnd
    let (pl, ok) := addWires sops f.surface ⟨[], []⟩ ws
    if ok then
      match tessFaces cops sops trim tol vmap st' rest with
      | none => none
      | some out => some (⟨ws, trim f.surface pl tol, f.ori⟩ :: out)
    else none

/-- `tessellation(shell, tol)`: vertex pass, then the face loop with the
shared edge memo.  `trim` stands for `trimming_tessellation`, whose interior
(the constrained Delaunay triangulation of the external `spade` crate)
produces the face's mesh payload. -/
def tessellation {P C S M : Type} (cops : CurveOps C P) (sops : SurfOps S P)
    (trim : S → Polyline → ℚ → M) (shell : Shl P C S) (tol : ℚ) :
    Option (Shl P (List P) M) :=
  let (vmap, fresh) := buildVmapGo (shellVertices shell) [] 0
  tessFaces cops sops trim tol vmap ⟨[], fresh⟩ shell

/-!
## Closed sweep of a vertex (`closed_sweep.rs`)
-/

/-- `Vertex::mapped(point_mapping)`: a fresh vertex whose point is the image
of the old point; the fresh-identity counter is threaded explicitly. -/
def vtxMapped {P : Type} (fp : P → P) (v : Vtx P) (fresh : Nat) : Vtx P × Nat :=
  (⟨fresh, fp v.pt⟩, fresh + 1)

/-- Modelled from the spec: `connect_vertices` of `topo_impls` (not under
the provided sources) builds the edge from `v0` to `v1` whose curve is
`cp` applied to the two points ("Vertex → Edge (connects `v` and `fp(v)`
via `cp`)"). -/
def connectVertices {P C : Type} (cp : P → P → C) (v0 v1 : Vtx P)
    (fresh : Nat) : Edg P C × Nat :=
  (⟨fresh, v0, v1, cp v0.pt v1.pt, true⟩, fresh + 1)

/-- The loop body of `Vertex::closed_sweep`: `n` open-sweep steps (map the
previous vertex, connect to it), then the final edge connecting back to the
original vertex `orig` itself. -/
def closedSweepGo {P C : Type} (fp : P → P) (cp : P → P → C) (orig : Vtx P) :
    Vtx P → Nat → Nat → List (Edg P C) × Nat
  | cur, 0, fresh =>
    let (e, fresh') := connectVertices cp cur orig fresh
    ([e], fresh')
  | cur, n + 1, fresh =>
    let (nv, f1) := vtxMapped fp cur fresh
    let (e, f2) := connectVertices cp cur nv f1
    let (rest, f3) := closedSweepGo fp cp orig nv n f2
    (e :: rest, f3)

/-- `Vertex::closed_sweep` with the full five-callback signature of the
`ClosedSweep` trait.  As in the source, the curve-trajectory, the
surface-trajectory and the curve-connecting callbacks are ignored
(`_: &FC`, `_: &FS`, `_: &CE`): the loop runs `division - 1` times
(`for _ in 1..division`) and a final edge connects back to the original
vertex. -/
def closedSweepVertex {P C S Sf : Type} (fp : P → P) (_fc : C → C)
    (_fs : Sf → Sf) (cp : P → P → C) (_ce : C → C → S) (v : Vtx P)
    (division : Nat) (fresh : Nat) : List (Edg P C) × Nat :=
  closedSweepGo fp cp v v (division - 1) fresh

/-!
## `Solid::try_new` (`solid.rs`)

The shell queries `is_empty`, `is_connected`, `shell_condition` and
`singular_vertices` are methods of `Shell` whose bodies are not under the
provided sources; they are carried as fields of the boundary-shell value,
modelled from the spec's §4.4 classification, and `try_new`'s dispatch over
them is embedded exactly as in `solid.rs`.
-/

/-- The shell classification (§4.4). -/
inductive ShellCondition where
  | Irregular
  | Regular
  | Oriented
  | Closed
deriving DecidableEq, Repr

/-- A boundary-shell candidate together with the results of the shell
queries consulted by `Solid::try_new`.  Modelled from the spec: the queries'
implementations (`is_connected`, `shell_condition`, `singular_vertices`) are
not under the provided sources, so they appear as data. -/
structure ShellQ (α : Type) where
  faces : List α
  connected : Bool
  condition : ShellCondition
  singularVertices : List Nat
deriving DecidableEq, Repr

/-- The construction errors of `Solid::try_new`. -/
inductive SolidError where
  | EmptyShell
  | NotConnected
  | NotClosedShell
  | NotManifold
deriving DecidableEq, Repr

/-- `Solid::try_new(boundaries)`: for each shell in input order, return the
first applicable error among `EmptyShell`, `NotConnected`, `NotClosedShell`,
`NotManifold`, checked in that order; if no shell offends, succeed with
`Solid::new_unchecked(boundaries)`. -/
def trySolidNew {α : Type} : List (ShellQ α) → Except SolidError (List (ShellQ α)) :=
  fun boundaries =>
    match go boundaries with
    | some err => .error err
    | none => .ok boundaries
where
  /-- The `for shell in &boundaries` loop of `try_new`. -/
  go : List (ShellQ α) → Option SolidError
  | [] => none
  | shell :: rest =>
    if shell.faces.isEmpty then some .EmptyShell
    else if !shell.connected then some .NotConnected
    else if shell.condition ≠ .Closed then some .NotClosedShell
    else if !shell.singularVertices.isEmpty then some .NotManifold
    else go rest

/-!
## Edge cut and vertex concat on solids (`solid.rs`)

`Solid::cut_edge` and `Solid::remove_vertex_by_concat_edges` delegate to the
same-named `Shell` methods, whose bodies are not under the provided sources.
The shell-level behaviour is modelled from the spec:

* "`cut_edge(edge_id, v)` — replaces the edge in *every* wire of every
  shell/face with two new edges joined at `v`.  Requires the curve to
  support `Cut` (split at the parameter recovered by searching `v.point`)."
* "`remove_vertex_by_concat_edges(vertex_id)` — fuses the two edges meeting
  at a degree-2 vertex into one, using `Concat` on curves.  Fails if the
  vertex has degree ≠ 2 or concatenation reports incompatibility."

The fallible search-then-`Cut` of the curve is abstracted as one callback
`cutC : C → Option (C × C)`, `Concat` as `concatC : C → C → Option C`, and
`Invertible` as `invC : C → C`.
-/

/-- A solid: its list of boundary shells. -/
abbrev SolidT (P C S : Type) : Type := List (Shl P C S)

/-- All edge occurrences of a solid, in iteration order. -/
def solidEdges {P C S : Type} (sol : SolidT P C S) : List (Edg P C) :=
  sol.flatMap fun sh => sh.flatMap fun f => f.bnd.flatMap fun w => w

/-- Apply a wire transformation to every wire of every face of every shell. -/
def mapWires {P C S : Type} (g : WireT P C → WireT P C) (sol : SolidT P C S) :
    SolidT P C S :=
  sol.map fun sh => sh.map fun f => { f with bnd := f.bnd.map g }

/-- First occurrence of the edge with identity `eid` in the solid. -/
def findEdge {P C S : Type} (eid : Nat) (sol : SolidT P C S) : Option (Edg P C) :=
  (solidEdges sol).find? fun e => e.id = eid

/-- Modelled from the spec: replace every occurrence of the edge `eid` in a
wire by the two cut halves `e1` (absolute front to `v`) and `e2` (`v` to
absolute back), respecting the occurrence's orientation. -/
def cutWire {P C : Type} (eid : Nat) (e1 e2 : Edg P C) (w : WireT P C) :
    WireT P C :=
  w.flatMap fun e =>
    if e.id = eid then
      if e.ori then [e1, e2] else [e2.inverse, e1.inverse]
    else [e]

/-- Modelled from the spec: `Solid::cut_edge(edge_id, v)`.  Locate the edge,
split its curve (`Cut` at the parameter found from `v`'s point), build the
two new edges with fresh identities, and replace the edge in every wire;
report failure when the edge is absent or the curve cannot be cut. -/
def Solid.cutEdge {P C S : Type} (cutC : C → Option (C × C)) (eid : Nat)
    (v : Vtx P) (fresh : Nat) (sol : SolidT P C S) : SolidT P C S × Bool :=
  match findEdge eid sol with
  | none => (sol, false)
  | some e =>
    match cutC e.curve with
    | none => (sol, false)
    | some (c1, c2) =>
      let e1 : Edg P C := ⟨fresh, e.fr, v, c1, true⟩
      let e2 : Edg P C := ⟨fresh + 1, v, e.bk, c2, true⟩
      (mapWires (cutWire eid e1 e2) sol, true)

/-- Identities of the edges incident to the vertex `vid` (occurrence list;
the vertex's degree is the number of distinct entries). -/
def incidentIds {P C S : Type} (vid : Nat) (sol : SolidT P C S) : List Nat :=
  (solidEdges sol).filterMap fun e =>
    if e.fr.id = vid ∨ e.bk.id = vid then some e.id else none

/-- First adjacent pair of oriented edges meeting at `vid` inside a wire. -/
def findPairInWire {P C : Type} (vid : Nat) : WireT P C →
    Option (Edg P C × Edg P C)
  | x :: y :: rest =>
    if x.backId = vid ∧ y.frontId = vid then some (x, y)
    else findPairInWire vid (y :: rest)
  | _ => none

/-- First adjacent pair of oriented edges meeting at `vid` in the solid. -/
def findPairAtVertex {P C S : Type} (vid : Nat) (sol : SolidT P C S) :
    Option (Edg P C × Edg P C) :=
  (sol.flatMap fun sh => sh.flatMap fun f => f.bnd).foldr
    (fun w acc => match findPairInWire vid w with
      | some p => some p
      | none => acc)
    none

/-- The curve as traversed by the handle's orientation (`Invertible`). -/
def orientedC {P C : Type} (invC : C → C) (e : Edg P C) : C :=
  if e.ori then e.curve else invC e.curve

/-- Modelled from the spec: fuse, in one wire, every adjacent pair meeting
at `vid` into the single edge `ef` (oriented to match the occurrence). -/
def fuseInWire {P C : Type} (vid : Nat) (ef : Edg P C) : WireT P C → WireT P C
  | [] => []
  | [x] => [x]
  | x :: y :: rest =>
    if x.backId = vid ∧ y.frontId = vid then
      (if x.ori then ef else ef.inverse) :: fuseInWire vid ef rest
    else x :: fuseInWire vid ef (y :: rest)

/-- Modelled from the spec: `Solid::remove_vertex_by_concat_edges`.  Fail
unless the vertex has degree 2; locate an adjacent pair meeting at the
vertex, normalize it to forward traversal, concatenate the curves, and
replace every occurrence of the pair by the fused edge; report failure when
concatenation is incompatible. -/
def Solid.removeVertexByConcatEdges {P C S : Type} (invC : C → C)
    (concatC : C → C → Option C) (vid : Nat) (fresh : Nat)
    (sol : SolidT P C S) : SolidT P C S × Bool :=
  if (incidentIds vid sol).dedup.length = 2 then
    match findPairAtVertex vid sol with
    | none => (sol, false)
    | some (x, y) =>
      let x' := if x.ori then x else y.inverse
      let y' := if x.ori then y else x.inverse
      match concatC (orientedC invC x') (orientedC invC y') with
      | none => (sol, false)
      | some cc =>
        let ef : Edg P C := ⟨fresh, x'.fr, y'.bk, cc, true⟩
        (mapWires (fuseInWire vid ef) sol, true)
  else (sol, false)

/-- The identity-erased shape of a wire: the oriented endpoint identities of
its edges. -/
def wireShape {P C : Type} (w : WireT P C) : List (Nat × Nat) :=
  w.map fun e => (e.frontId, e.backId)

/-- The identity-erased shape of a solid: per shell, per face, the
orientation bit and the wire shapes. -/
def solidShape {P C S : Type} (sol : SolidT P C S) :
    List (List (Bool × List (List (Nat × Nat)))) :=
  sol.map fun sh => sh.map fun f => (f.ori, f.bnd.map wireShape)

/-- Occurrence list of all edge identities of a solid. -/
def edgeIdList {P C S : Type} (sol : SolidT P C S) : List Nat :=
  (solidEdges sol).map Edg.id

/-- Occurrence list of all endpoint vertex identities of a solid. -/
def vertexIdList {P C S : Type} (sol : SolidT P C S) : List Nat :=
  (solidEdges sol).flatMap fun e => [e.fr.id, e.bk.id]

/-- Total face count of a solid. -/
def numFaces {P C S : Type} (sol : SolidT P C S) : Nat :=
  (sol.map List.length).sum

/-!
## Spec-side definitions and concrete test data
-/

/-- Spec-side restatement of one point-in-polygon step, following the
claim's words: for endpoints `a`, `b` relative to the query point, with
`x = (a_x b_y − a_y b_x)(b_y − a_y)`, abandon on `|x| < tol ∧ a_y b_y < 0`,
increment on `x > tol ∧ a_y ≤ −tol ∧ b_y > tol`, decrement on
`x > tol ∧ a_y ≥ tol ∧ b_y < −tol`. -/
def includeSpecStep (a b : Pt2) (tol : ℚ) (counter : Int) : Option Int :=
  let x := (a.1 * b.2 - a.2 * b.1) * (b.2 - a.2)
  if |x| < tol ∧ a.2 * b.2 < 0 then none
  else if x > tol ∧ a.2 ≤ -tol ∧ b.2 > tol then some (counter + 1)
  else if x > tol ∧ a.2 ≥ tol ∧ b.2 < -tol then some (counter - 1)
  else some counter

/-- Spec-side fold of the point-in-polygon counter over the boundary
edges. -/
def includeSpecAux (pl : Polyline) (c : Pt2) (tol : ℚ) :
    Int → List (Nat × Nat) → Option Int
  | counter, [] => some counter
  | counter, ij :: rest =>
    match includeSpecStep (sub2 (pl.positions.getD ij.1 (0, 0)) c)
        (sub2 (pl.positions.getD ij.2 (0, 0)) c) tol counter with
    | none => none
    | some counter' => includeSpecAux pl c tol counter' rest

/-- Spec-side point-in-polygon decision: inside iff the completed fold's
counter is strictly positive; abandoned folds report `false`. -/
def includeSpec (pl : Polyline) (c : Pt2) (tol : ℚ) : Bool :=
  match includeSpecAux pl c tol 0 pl.indices with
  | some counter => decide (counter > 0)
  | none => false

/-- The axis-aligned unit square with vertices `(0,0),(1,0),(1,1),(0,1)`
and its four boundary edges in order. -/
def squarePl : Polyline :=
  ⟨[(0, 0), (1, 0), (1, 1), (0, 1)], [(0, 1), (1, 2), (2, 3), (3, 0)]⟩

/-- The tolerance `1e-9` of the point-in-polygon sanity checks. -/
def eps : ℚ := 1 / 1000000000

/-- Reflection about the x-axis, `(x, y) ↦ (x, −y)`. -/
def reflectX (p : Pt2) : Pt2 := (p.1, -p.2)

/-- A polyline with all its points reflected about the x-axis. -/
def Polyline.reflectX (pl : Polyline) : Polyline :=
  ⟨pl.positions.map Truck.reflectX, pl.indices⟩

/-- Squared distance from the point `c` to the segment from `a` to `b`. -/
def segDistSq (a b c : Pt2) : ℚ :=
  let d := sub2 b a
  let w := sub2 c a
  let dd := d.1 * d.1 + d.2 * d.2
  if dd = 0 then w.1 * w.1 + w.2 * w.2
  else
    let t := max 0 (min 1 ((w.1 * d.1 + w.2 * d.2) / dd))
    (c.1 - (a.1 + t * d.1)) ^ 2 + (c.2 - (a.2 + t * d.2)) ^ 2


/-!
## Evaluation helpers for the point-in-polygon fold

Rational-arithmetic evaluation is carried out by `norm_num`; the fold is
unrolled one boundary edge at a time.
-/

theorem includeAux_nil {pos : List Pt2} {c : Pt2} {tol : ℚ} {k : Int} :
    includeAux pos c tol k [] = some k := rfl

theorem includeAux_cons_eval {pos : List Pt2} {c : Pt2} {tol : ℚ}
    {k k' : Int} {ij : Nat × Nat} {rest : List (Nat × Nat)}
    (h : includeStep pos c tol k ij = some k') :
    includeAux pos c tol k (ij :: rest) = includeAux pos c tol k' rest := by
  show (match includeStep pos c tol k ij with
    | none => none
    | some counter' => includeAux pos c tol counter' rest) = _
  rw [h]

theorem includeAux_cons_none {pos : List Pt2} {c : Pt2} {tol : ℚ}
    {k : Int} {ij : Nat × Nat} {rest : List (Nat × Nat)}
    (h : includeStep pos c tol k ij = none) :
    includeAux pos c tol k (ij :: rest) = none := by
  show (match includeStep pos c tol k ij with
    | none => none
    | some counter' => includeAux pos c tol counter' rest) = _
  rw [h]

theorem include'_eval_none {pl : Polyline} {c : Pt2} {tol : ℚ}
    (h : includeAux pl.positions c tol 0 pl.indices = none) :
    pl.include' c tol = false := by
  show (match includeAux pl.positions c tol 0 pl.indices with
    | some counter => decide (counter > 0)
    | none => false) = _
  rw [h]

theorem include'_eval {pl : Polyline} {c : Pt2} {tol : ℚ} {k : Int}
    (h : includeAux pl.positions c tol 0 pl.indices = some k) :
    pl.include' c tol = decide (k > 0) := by
  show (match includeAux pl.positions c tol 0 pl.indices with
    | some counter => decide (counter > 0)
    | none => false) = _
  rw [h]

theorem sqAux_inside : includeAux squarePl.positions (1/2, 1/2) eps 0 squarePl.indices = some 1 := by
  have h0 : squarePl.positions.getD 0 (0, 0) = (0, 0) := rfl
  have h1 : squarePl.positions.getD 1 (0, 0) = (1, 0) := rfl
  have h2 : squarePl.positions.getD 2 (0, 0) = (1, 1) := rfl
  have h3 : squarePl.positions.getD 3 (0, 0) = (0, 1) := rfl
  have s1 : includeStep squarePl.positions (1/2, 1/2) eps 0 (0, 1) = some 0 := by
    rw [includeStep, h0, h1]; norm_num [sub2, eps, abs_lt]
  have s2 : includeStep squarePl.positions (1/2, 1/2) eps 0 (1, 2) = some 1 := by
    rw [includeStep, h1, h2]; norm_num [sub2, eps, abs_lt]
  have s3 : includeStep squarePl.positions (1/2, 1/2) eps 1 (2, 3) = some 1 := by
    rw [includeStep, h2, h3]; norm_num [sub2, eps, abs_lt]
  have s4 : includeStep squarePl.positions (1/2, 1/2) eps 1 (3, 0) = some 1 := by
    rw [includeStep, h3, h0]; norm_num [sub2, eps, abs_lt]
  rw [show squarePl.indices = [(0, 1), (1, 2), (2, 3), (3, 0)] from rfl,
    includeAux_cons_eval s1, includeAux_cons_eval s2, includeAux_cons_eval s3,
    includeAux_cons_eval s4]
  exact includeAux_nil

theorem sqAux_outside : includeAux squarePl.positions (3/2, 1/2) eps 0 squarePl.indices = some 0 := by
  have h0 : squarePl.positions.getD 0 (0, 0) = (0, 0) := rfl
  have h1 : squarePl.positions.getD 1 (0, 0) = (1, 0) := rfl
  have h2 : squarePl.positions.getD 2 (0, 0) = (1, 1) := rfl
  have h3 : squarePl.positions.getD 3 (0, 0) = (0, 1) := rfl
  have s1 : includeStep squarePl.positions (3/2, 1/2) eps 0 (0, 1) = some 0 := by
    rw [includeStep, h0, h1]; norm_num [sub2, eps, abs_lt]
  have s2 : includeStep squarePl.positions (3/2, 1/2) eps 0 (1, 2) = some 0 := by
    rw [includeStep, h1, h2]; norm_num [sub2, eps, abs_lt]
  have s3 : includeStep squarePl.positions (3/2, 1/2) eps 0 (2, 3) = some 0 := by
    rw [includeStep, h2, h3]; norm_num [sub2, eps, abs_lt]
  have s4 : includeStep squarePl.positions (3/2, 1/2) eps 0 (3, 0) = some 0 := by
    rw [includeStep, h3, h0]; norm_num [sub2, eps, abs_lt]
  rw [show squarePl.indices = [(0, 1), (1, 2), (2, 3), (3, 0)] from rfl,
    includeAux_cons_eval s1, includeAux_cons_eval s2, includeAux_cons_eval s3,
    includeAux_cons_eval s4]
  exact includeAux_nil

theorem sqAux_boundary : includeAux squarePl.positions (1/2, 0) eps 0 squarePl.indices = some 0 := by
  have h0 : squarePl.positions.getD 0 (0, 0) = (0, 0) := rfl
  have h1 : squarePl.positions.getD 1 (0, 0) = (1, 0) := rfl
  have h2 : squarePl.positions.getD 2 (0, 0) = (1, 1) := rfl
  have h3 : squarePl.positions.getD 3 (0, 0) = (0, 1) := rfl
  have s1 : includeStep squarePl.positions (1/2, 0) eps 0 (0, 1) = some 0 := by
    rw [includeStep, h0, h1]; norm_num [sub2, eps, abs_lt]
  have s2 : includeStep squarePl.positions (1/2, 0) eps 0 (1, 2) = some 0 := by
    rw [includeStep, h1, h2]; norm_num [sub2, eps, abs_lt]
  have s3 : includeStep squarePl.positions (1/2, 0) eps 0 (2, 3) = some 0 := by
    rw [includeStep, h2, h3]; norm_num [sub2, eps, abs_lt]
  have s4 : includeStep squarePl.positions (1/2, 0) eps 0 (3, 0) = some 0 := by
    rw [includeStep, h3, h0]; norm_num [sub2, eps, abs_lt]
  rw [show squarePl.indices = [(0, 1), (1, 2), (2, 3), (3, 0)] from rfl,
    includeAux_cons_eval s1, includeAux_cons_eval s2, includeAux_cons_eval s3,
    includeAux_cons_eval s4]
  exact includeAux_nil

theorem sqAux_boundary_tol0 : includeAux squarePl.positions (1/2, 0) 0 0 squarePl.indices = some 1 := by
  have h0 : squarePl.positions.getD 0 (0, 0) = (0, 0) := rfl
  have h1 : squarePl.positions.getD 1 (0, 0) = (1, 0) := rfl
  have h2 : squarePl.positions.getD 2 (0, 0) = (1, 1) := rfl
  have h3 : squarePl.positions.getD 3 (0, 0) = (0, 1) := rfl
  have s1 : includeStep squarePl.positions (1/2, 0) 0 0 (0, 1) = some 0 := by
    rw [includeStep, h0, h1]; norm_num [sub2, abs_lt]
  have s2 : includeStep squarePl.positions (1/2, 0) 0 0 (1, 2) = some 1 := by
    rw [includeStep, h1, h2]; norm_num [sub2, abs_lt]
  have s3 : includeStep squarePl.positions (1/2, 0) 0 1 (2, 3) = some 1 := by
    rw [includeStep, h2, h3]; norm_num [sub2, abs_lt]
  have s4 : includeStep squarePl.positions (1/2, 0) 0 1 (3, 0) = some 1 := by
    rw [includeStep, h3, h0]; norm_num [sub2, abs_lt]
  rw [show squarePl.indices = [(0, 1), (1, 2), (2, 3), (3, 0)] from rfl,
    includeAux_cons_eval s1, includeAux_cons_eval s2, includeAux_cons_eval s3,
    includeAux_cons_eval s4]
  exact includeAux_nil

theorem sqAux_inside_TOL : includeAux squarePl.positions (1/2, 1/2) TOLERANCE 0 squarePl.indices = some 1 := by
  have h0 : squarePl.positions.getD 0 (0, 0) = (0, 0) := rfl
  have h1 : squarePl.positions.getD 1 (0, 0) = (1, 0) := rfl
  have h2 : squarePl.positions.getD 2 (0, 0) = (1, 1) := rfl
  have h3 : squarePl.positions.getD 3 (0, 0) = (0, 1) := rfl
  have s1 : includeStep squarePl.positions (1/2, 1/2) TOLERANCE 0 (0, 1) = some 0 := by
    rw [includeStep, h0, h1]; norm_num [sub2, TOLERANCE, abs_lt]
  have s2 : includeStep squarePl.positions (1/2, 1/2) TOLERANCE 0 (1, 2) = some 1 := by
    rw [includeStep, h1, h2]; norm_num [sub2, TOLERANCE, abs_lt]
  have s3 : includeStep squarePl.positions (1/2, 1/2) TOLERANCE 1 (2, 3) = some 1 := by
    rw [includeStep, h2, h3]; norm_num [sub2, TOLERANCE, abs_lt]
  have s4 : includeStep squarePl.positions (1/2, 1/2) TOLERANCE 1 (3, 0) = some 1 := by
    rw [includeStep, h3, h0]; norm_num [sub2, TOLERANCE, abs_lt]
  rw [show squarePl.indices = [(0, 1), (1, 2), (2, 3), (3, 0)] from rfl,
    includeAux_cons_eval s1, includeAux_cons_eval s2, includeAux_cons_eval s3,
    includeAux_cons_eval s4]
  exact includeAux_nil

theorem sqAux_inside_tol2 : includeAux squarePl.positions (1/2, 1/2) 2 0 squarePl.indices = none := by
  have h0 : squarePl.positions.getD 0 (0, 0) = (0, 0) := rfl
  have h1 : squarePl.positions.getD 1 (0, 0) = (1, 0) := rfl
  have h2 : squarePl.positions.getD 2 (0, 0) = (1, 1) := rfl
  have s1 : includeStep squarePl.positions (1/2, 1/2) 2 0 (0, 1) = some 0 := by
    rw [includeStep, h0, h1]; norm_num [sub2, abs_lt]
  have s2 : includeStep squarePl.positions (1/2, 1/2) 2 0 (1, 2) = none := by
    rw [includeStep, h1, h2]; norm_num [sub2, abs_lt]
  rw [show squarePl.indices = [(0, 1), (1, 2), (2, 3), (3, 0)] from rfl,
    includeAux_cons_eval s1, includeAux_cons_none s2]

theorem sqXAux_inside : includeAux (Polyline.reflectX squarePl).positions
    (1/2, -(1/2)) eps 0 (Polyline.reflectX squarePl).indices = some (-1) := by
  have hpos : (Polyline.reflectX squarePl).positions =
      [(0, 0), (1, 0), (1, -1), (0, -1)] := by
    show List.map Truck.reflectX squarePl.positions = _
    rw [show squarePl.positions = [(0, 0), (1, 0), (1, 1), (0, 1)] from rfl]
    norm_num [Truck.reflectX]
  rw [hpos, show (Polyline.reflectX squarePl).indices = [(0, 1), (1, 2), (2, 3), (3, 0)] from rfl]
  have h0 : List.getD [((0 : ℚ), (0 : ℚ)), (1, 0), (1, -1), (0, -1)] 0 (0, 0) = (0, 0) := rfl
  have h1 : List.getD [((0 : ℚ), (0 : ℚ)), (1, 0), (1, -1), (0, -1)] 1 (0, 0) = (1, 0) := rfl
  have h2 : List.getD [((0 : ℚ), (0 : ℚ)), (1, 0), (1, -1), (0, -1)] 2 (0, 0) = (1, -1) := rfl
  have h3 : List.getD [((0 : ℚ), (0 : ℚ)), (1, 0), (1, -1), (0, -1)] 3 (0, 0) = (0, -1) := rfl
  have s1 : includeStep [((0 : ℚ), (0 : ℚ)), (1, 0), (1, -1), (0, -1)] (1/2, -(1/2)) eps 0 (0, 1) = some 0 := by
    rw [includeStep, h0, h1]; norm_num [sub2, eps, abs_lt]
  have s2 : includeStep [((0 : ℚ), (0 : ℚ)), (1, 0), (1, -1), (0, -1)] (1/2, -(1/2)) eps 0 (1, 2) = some (-1) := by
    rw [includeStep, h1, h2]; norm_num [sub2, eps, abs_lt]
  have s3 : includeStep [((0 : ℚ), (0 : ℚ)), (1, 0), (1, -1), (0, -1)] (1/2, -(1/2)) eps (-1) (2, 3) = some (-1) := by
    rw [includeStep, h2, h3]; norm_num [sub2, eps, abs_lt]
  have s4 : includeStep [((0 : ℚ), (0 : ℚ)), (1, 0), (1, -1), (0, -1)] (1/2, -(1/2)) eps (-1) (3, 0) = some (-1) := by
    rw [includeStep, h3, h0]; norm_num [sub2, eps, abs_lt]
  rw [includeAux_cons_eval s1, includeAux_cons_eval s2, includeAux_cons_eval s3,
    includeAux_cons_eval s4]
  exact includeAux_nil

/-!
## C3 — the point-in-polygon algorithm and the square sanity checks
-/

theorem includeAux_eq_spec (pl : Polyline) (c : Pt2) (tol : ℚ)
    (counter : Int) (idx : List (Nat × Nat)) :
    includeAux pl.positions c tol counter idx = includeSpecAux pl c tol counter idx := by
  induction idx generalizing counter with
  | nil => rfl
  | cons ij rest ih =>
    show (match includeStep pl.positions c tol counter ij with
      | none => none
      | some counter' => includeAux pl.positions c tol counter' rest) =
      (match includeSpecStep (sub2 (pl.positions.getD ij.1 (0, 0)) c)
          (sub2 (pl.positions.getD ij.2 (0, 0)) c) tol counter with
        | none => none
        | some counter' => includeSpecAux pl c tol counter' rest)
    have hstep : includeStep pl.positions c tol counter ij =
        includeSpecStep (sub2 (pl.positions.getD ij.1 (0, 0)) c)
          (sub2 (pl.positions.getD ij.2 (0, 0)) c) tol counter := rfl
    rw [hstep]
    cases includeSpecStep (sub2 (pl.positions.getD ij.1 (0, 0)) c)
        (sub2 (pl.positions.getD ij.2 (0, 0)) c) tol counter with
    | none => rfl
    | some counter' => exact ih counter'

/-- C3 (amended): `Polyline::include` computes exactly the tolerance-aware
signed crossing fold described by the claim (abandon on
`|x| < tol ∧ a_y b_y < 0`, increment on `x > tol ∧ a_y ≤ −tol ∧ b_y > tol`,
decrement on `x > tol ∧ a_y ≥ tol ∧ b_y < −tol`, inside iff the final
counter is strictly positive), and on the axis-aligned unit square with
`tol = 1e-9` it reports `(0.5, 0.5)` inside, `(1.5, 0.5)` outside and
`(0.5, 0.0)` outside — the boundary query completing the fold with counter
`0`, not by abandonment. -/
theorem include_matches_spec_and_square_sanity :
    (∀ (pl : Polyline) (c : Pt2) (tol : ℚ), pl.include' c tol = includeSpec pl c tol) ∧
    squarePl.include' (1/2, 1/2) eps = true ∧
    squarePl.include' (3/2, 1/2) eps = false ∧
    squarePl.include' (1/2, 0) eps = false ∧
    includeAux squarePl.positions (1/2, 0) eps 0 squarePl.indices = some 0 := by
  refine ⟨fun pl c tol => ?_, by rw [include'_eval sqAux_inside]; rfl,
    by rw [include'_eval sqAux_outside]; rfl,
    by rw [include'_eval sqAux_boundary]; rfl, sqAux_boundary⟩
  show (match includeAux pl.positions c tol 0 pl.indices with
    | some counter => decide (counter > 0)
    | none => false) = includeSpec pl c tol
  rw [includeAux_eq_spec]; rfl

/-- C3 (counterexample): the claim reports the boundary query `(0.5, 0.0)`
on the unit square as abandoned, but the fold is not abandoned — it
completes with counter `0` (the horizontal boundary edge has
`a_y · b_y = 0`, so the abandon branch never fires), and the `false`
verdict comes from the non-positive counter. -/
theorem include_square_boundary_not_abandoned :
    includeAux squarePl.positions (1/2, 0) eps 0 squarePl.indices ≠ none ∧
    includeAux squarePl.positions (1/2, 0) eps 0 squarePl.indices = some 0 ∧
    squarePl.include' (1/2, 0) eps = false := by
  refine ⟨?_, sqAux_boundary, by rw [include'_eval sqAux_boundary]; rfl⟩
  rw [sqAux_boundary]
  exact Option.some_ne_none 0

/-!
## C4 — the interior filters and their tolerances
-/

/-- C4 (amended): the tolerance-aware point-in-polygon test is used both to
filter parameter-grid samples and to filter triangles, but not at the
tessellation tolerance: a grid sample is inserted iff it lies inside at the
fixed crate tolerance `TOLERANCE = 1e-7`, and a triangle is kept iff its
centroid (the coordinate-wise average of its vertices) lies inside at
tolerance `0`. -/
theorem interior_filters_use_fixed_tolerances :
    (∀ {S : Type} (sops2 : S → (ℚ × ℚ) × (ℚ × ℚ) → ℚ → List ℚ × List ℚ)
      (surface : S) (pl : Polyline) (tol : ℚ) (pt : Pt2),
      pt ∈ insertedGridPoints sops2 surface pl tol ↔
        pt ∈ gridPoints sops2 surface pl tol ∧ pl.include' pt TOLERANCE = true) ∧
    (∀ (pl : Polyline) (tris : List (Pt2 × Pt2 × Pt2)) (t : Pt2 × Pt2 × Pt2),
      t ∈ keptTriangles pl tris ↔
        t ∈ tris ∧ pl.include' (centroid t) 0 = true) := by
  constructor
  · intro S sops2 surface pl tol pt
    simp [insertedGridPoints, List.mem_filter]
  · intro pl tris t
    simp [keptTriangles, List.mem_filter]

/-- C4 (counterexample): at tessellation tolerance `1e-9`, the triangle
with vertices `(0,−1/2), (1,0), (1/2,1/2)` — centroid `(1/2, 0)` on the
unit square's boundary — is kept by the code's centroid filter (which uses
tolerance `0`), although the tolerance-aware test invoked with the
tessellation tolerance rejects the centroid; likewise the grid sample
`(1/2, 1/2)` is inserted at tessellation tolerance `2` (the code filters at
the fixed `TOLERANCE`), although the test at tolerance `2` rejects it. -/
theorem interior_filters_differ_from_claim :
    keptTriangles squarePl [((0, -(1/2)), (1, 0), (1/2, 1/2))] =
      [((0, -(1/2)), (1, 0), (1/2, 1/2))] ∧
    centroid ((0, -(1/2)), (1, 0), (1/2, 1/2)) = (1/2, 0) ∧
    squarePl.include' (1/2, 0) eps = false ∧
    eps ≠ 0 ∧
    insertedGridPoints (fun (_ : Unit) _ _ => ([1/2], [1/2])) () squarePl 2 =
      [(1/2, 1/2)] ∧
    squarePl.include' (1/2, 1/2) 2 = false := by
  have hc : centroid ((0, -(1/2)), (1, 0), (1/2, 1/2)) = ((1 : ℚ)/2, (0 : ℚ)) := by
    rw [centroid]; norm_num
  have hb0 : squarePl.include' (1/2, 0) 0 = true := by
    rw [include'_eval sqAux_boundary_tol0]; rfl
  have hTOL : squarePl.include' (1/2, 1/2) TOLERANCE = true := by
    rw [include'_eval sqAux_inside_TOL]; rfl
  refine ⟨?_, hc, by rw [include'_eval sqAux_boundary]; rfl, by norm_num [eps], ?_,
    include'_eval_none sqAux_inside_tol2⟩
  · rw [keptTriangles, List.filter, hc, hb0]
    rfl
  · rw [insertedGridPoints, gridPoints]
    show List.filter _ (([(1 : ℚ)/2].flatMap fun u => [(1 : ℚ)/2].map fun v => (u, v))) = _
    rw [show ([(1 : ℚ)/2].flatMap fun u => [(1 : ℚ)/2].map fun v => (u, v)) =
      [((1 : ℚ)/2, (1 : ℚ)/2)] from rfl, List.filter, hTOL]
    rfl

/-!
## C5 — reflection and the point-in-polygon test
-/

theorem getD_map_reflectX (pos : List Pt2) (i : Nat) :
    (pos.map reflectX).getD i (0, 0) = reflectX (pos.getD i (0, 0)) := by
  induction pos generalizing i with
  | nil => cases i <;> rfl
  | cons p rest ih =>
    cases i with
    | zero => rfl
    | succ n => exact ih n

theorem sub2_reflectX (u c : Pt2) :
    sub2 (reflectX u) (reflectX c) = reflectX (sub2 u c) := by
  unfold sub2 reflectX
  simp only [Prod.mk.injEq]
  refine ⟨by trivial, by ring⟩

theorem includeStep_reflectX (pos : List Pt2) (c : Pt2) (tol : ℚ)
    (htol : 0 < tol) (counter : Int) (ij : Nat × Nat) :
    includeStep (pos.map reflectX) (reflectX c) tol counter ij =
      (includeStep pos c tol (-counter) ij).map (fun k => -k) := by
  unfold includeStep
  rw [getD_map_reflectX, getD_map_reflectX, sub2_reflectX, sub2_reflectX]
  set a := sub2 (pos.getD ij.1 (0, 0)) c with hadef
  set b := sub2 (pos.getD ij.2 (0, 0)) c with hbdef
  show (if |(a.1 * (reflectX b).2 - (reflectX a).2 * b.1) * ((reflectX b).2 - (reflectX a).2)| < tol ∧
      (reflectX a).2 * (reflectX b).2 < 0 then none
    else if (a.1 * (reflectX b).2 - (reflectX a).2 * b.1) * ((reflectX b).2 - (reflectX a).2) > tol ∧
      (reflectX a).2 ≤ -tol ∧ (reflectX b).2 > tol then some (counter + 1)
    else if (a.1 * (reflectX b).2 - (reflectX a).2 * b.1) * ((reflectX b).2 - (reflectX a).2) > tol ∧
      (reflectX a).2 ≥ tol ∧ (reflectX b).2 < -tol then some (counter - 1)
    else some counter) = _
  have hra : (reflectX a).2 = -a.2 := rfl
  have hrb : (reflectX b).2 = -b.2 := rfl
  rw [hra, hrb]
  have hx : (a.1 * -b.2 - -a.2 * b.1) * (-b.2 - -a.2) =
      (a.1 * b.2 - a.2 * b.1) * (b.2 - a.2) := by ring
  have hy : -a.2 * -b.2 = a.2 * b.2 := by ring
  rw [hx, hy]
  set x := (a.1 * b.2 - a.2 * b.1) * (b.2 - a.2) with hxdef
  by_cases h1 : |x| < tol ∧ a.2 * b.2 < 0
  · rw [if_pos h1, if_pos h1]
    rfl
  · rw [if_neg h1, if_neg h1]
    by_cases h2 : x > tol ∧ a.2 ≥ tol ∧ b.2 < -tol
    · have h2' : x > tol ∧ -a.2 ≤ -tol ∧ -b.2 > tol :=
        ⟨h2.1, by linarith [h2.2.1], by linarith [h2.2.2]⟩
      have hni : ¬(x > tol ∧ a.2 ≤ -tol ∧ b.2 > tol) := by
        rintro ⟨-, hA, hB⟩
        have := h2.2.1
        linarith
      rw [if_pos h2', if_neg hni, if_pos h2]
      show some (counter + 1) = some (-(-counter - 1))
      congr 1
      ring
    · by_cases h3 : x > tol ∧ a.2 ≤ -tol ∧ b.2 > tol
      · have h3' : x > tol ∧ -a.2 ≥ tol ∧ -b.2 < -tol :=
          ⟨h3.1, by linarith [h3.2.1], by linarith [h3.2.2]⟩
        have hni : ¬(x > tol ∧ -a.2 ≤ -tol ∧ -b.2 > tol) := by
          rintro ⟨hX, hA, hB⟩
          exact h2 ⟨hX, by linarith, by linarith⟩
        rw [if_neg hni, if_pos h3', if_pos h3]
        show some (counter - 1) = some (-(-counter + 1))
        congr 1
        ring
      · have hni : ¬(x > tol ∧ -a.2 ≤ -tol ∧ -b.2 > tol) := by
          rintro ⟨hX, hA, hB⟩
          exact h2 ⟨hX, by linarith, by linarith⟩
        have hnd : ¬(x > tol ∧ -a.2 ≥ tol ∧ -b.2 < -tol) := by
          rintro ⟨hX, hA, hB⟩
          exact h3 ⟨hX, by linarith, by linarith⟩
        rw [if_neg hni, if_neg hnd, if_neg h3, if_neg h2]
        show some counter = some (-(-counter))
        congr 1
        ring

theorem includeAux_reflectX (pos : List Pt2) (c : Pt2) (tol : ℚ)
    (htol : 0 < tol) (counter : Int) (idx : List (Nat × Nat)) :
    includeAux (pos.map reflectX) (reflectX c) tol counter idx =
      (includeAux pos c tol (-counter) idx).map (fun k => -k) := by
  induction idx generalizing counter with
  | nil =>
    rw [includeAux_nil, includeAux_nil]
    show some counter = some (-(-counter))
    rw [neg_neg]
  | cons ij rest ih =>
    show (match includeStep (pos.map reflectX) (reflectX c) tol counter ij with
      | none => none
      | some counter' => includeAux (pos.map reflectX) (reflectX c) tol counter' rest) =
      Option.map (fun k => -k)
        (match includeStep pos c tol (-counter) ij with
          | none => none
          | some counter' => includeAux pos c tol counter' rest)
    rw [includeStep_reflectX pos c tol htol]
    cases h : includeStep pos c tol (-counter) ij with
    | none => rfl
    | some k' =>
      show includeAux (pos.map reflectX) (reflectX c) tol (-k') rest =
        Option.map (fun k => -k) (includeAux pos c tol k' rest)
      have hih := ih (-k')
      rw [neg_neg] at hih
      exact hih

/-- C5 (amended): reflecting the polyline and the query point about the
x-axis negates the signed crossing counter instead of preserving the
verdict: for `tol > 0` the reflected test reports inside exactly when the
original fold completes with a strictly *negative* counter.  The boolean
result is therefore not stable under reflection (reflection reverses the
traversal orientation the signed counter is sensitive to), as the unit
square witnesses. -/
theorem include_reflectX_negates_counter (pl : Polyline) (c : Pt2) (tol : ℚ)
    (htol : 0 < tol) :
    (Polyline.reflectX pl).include' (reflectX c) tol =
      (match includeAux pl.positions c tol 0 pl.indices with
        | some counter => decide (counter < 0)
        | none => false) := by
  have hmain := includeAux_reflectX pl.positions c tol htol 0 pl.indices
  rw [neg_zero] at hmain
  show (match includeAux (pl.positions.map Truck.reflectX) (reflectX c) tol 0 pl.indices with
    | some counter => decide (counter > 0)
    | none => false) = _
  rw [hmain]
  cases includeAux pl.positions c tol 0 pl.indices with
  | none => rfl
  | some k =>
    show decide (-k > 0) = decide (k < 0)
    simp only [gt_iff_lt, neg_pos]

/-- C5 (witness): the amended claim applied to the unit square at the query
`(0.5, 0.5)` and `tol = 1e-9`. -/
theorem include_reflectX_negates_counter_witness :
    (0 : ℚ) < eps ∧
    (Polyline.reflectX squarePl).include' (reflectX (1/2, 1/2)) eps =
      (match includeAux squarePl.positions (1/2, 1/2) eps 0 squarePl.indices with
        | some counter => decide (counter < 0)
        | none => false) :=
  ⟨by norm_num [eps],
   include_reflectX_negates_counter squarePl (1/2, 1/2) eps (by norm_num [eps])⟩

/-- C5 (counterexample): the unit square traversed in order is a simple
closed polyline, the query `(0.5, 0.5)` is strictly farther than
`tol = 1e-9` from every edge, and the reflection axis (the x-axis) does not
cross the query point; yet reflecting polyline and query about that axis
flips the test from `true` to `false`. -/
theorem include_not_reflection_stable :
    (0 : ℚ) < eps ∧
    squarePl.positions.Nodup ∧
    squarePl.indices = [(0, 1), (1, 2), (2, 3), (3, 0)] ∧
    (∀ ij ∈ squarePl.indices,
      segDistSq (squarePl.positions.getD ij.1 (0, 0))
        (squarePl.positions.getD ij.2 (0, 0)) (1/2, 1/2) > eps ^ 2) ∧
    ((1/2 : ℚ), (1/2 : ℚ)).2 ≠ 0 ∧
    squarePl.include' (1/2, 1/2) eps = true ∧
    (Polyline.reflectX squarePl).include' (reflectX (1/2, 1/2)) eps = false := by
  refine ⟨by norm_num [eps], ?_, rfl, ?_, by norm_num, ?_, ?_⟩
  · show List.Nodup [((0 : ℚ), (0 : ℚ)), (1, 0), (1, 1), (0, 1)]
    norm_num [Prod.ext_iff]
  · intro ij hij
    have h0 : squarePl.positions.getD 0 (0, 0) = (0, 0) := rfl
    have h1 : squarePl.positions.getD 1 (0, 0) = (1, 0) := rfl
    have h2 : squarePl.positions.getD 2 (0, 0) = (1, 1) := rfl
    have h3 : squarePl.positions.getD 3 (0, 0) = (0, 1) := rfl
    fin_cases hij
    · rw [show ((0 : Nat), (1 : Nat)).1 = 0 from rfl, show ((0 : Nat), (1 : Nat)).2 = 1 from rfl,
        h0, h1, segDistSq]
      norm_num [sub2, eps, min_def, max_def]
    · rw [show ((1 : Nat), (2 : Nat)).1 = 1 from rfl, show ((1 : Nat), (2 : Nat)).2 = 2 from rfl,
        h1, h2, segDistSq]
      norm_num [sub2, eps, min_def, max_def]
    · rw [show ((2 : Nat), (3 : Nat)).1 = 2 from rfl, show ((2 : Nat), (3 : Nat)).2 = 3 from rfl,
        h2, h3, segDistSq]
      norm_num [sub2, eps, min_def, max_def]
    · rw [show ((3 : Nat), (0 : Nat)).1 = 3 from rfl, show ((3 : Nat), (0 : Nat)).2 = 0 from rfl,
        h3, h0, segDistSq]
      norm_num [sub2, eps, min_def, max_def]
  · rw [include'_eval sqAux_inside]; rfl
  · show (Polyline.reflectX squarePl).include' (1/2, -(1/2)) eps = false
    rw [include'_eval sqXAux_inside]; rfl

/-!
## C6 — `Solid::try_new`
-/

/-- A shell passes `try_new`'s checks: nonempty, connected, closed, and
without singular vertices. -/
def shellOkB {α : Type} (s : ShellQ α) : Bool :=
  !s.faces.isEmpty && s.connected && decide (s.condition = .Closed) &&
    s.singularVertices.isEmpty

/-- The error `try_new` reports for an offending shell: the first
applicable among `EmptyShell`, `NotConnected`, `NotClosedShell`,
`NotManifold`, checked in that order. -/
def shellErr {α : Type} (s : ShellQ α) : SolidError :=
  if s.faces.isEmpty then .EmptyShell
  else if !s.connected then .NotConnected
  else if s.condition ≠ .Closed then .NotClosedShell
  else .NotManifold

/-- C6: `Solid::try_new(boundaries)` succeeds iff every shell is nonempty,
connected, closed and without singular vertex; otherwise it reports, for
the first offending shell in input order, the first applicable error in the
order `EmptyShell`, `NotConnected`, `NotClosedShell`, `NotManifold`.  In
particular a boundary list led by an empty shell yields `EmptyShell`. -/
theorem trySolidNew_characterization :
    (∀ {α : Type} (bs : List (ShellQ α)),
      trySolidNew bs =
        (match bs.find? (fun s => !shellOkB s) with
          | some s => .error (shellErr s)
          | none => .ok bs)) ∧
    trySolidNew [(⟨[], true, .Closed, []⟩ : ShellQ Unit)] = .error .EmptyShell := by
  have main : ∀ {α : Type} (bs : List (ShellQ α)),
      trySolidNew.go bs = (bs.find? (fun s => !shellOkB s)).map shellErr := by
    intro α bs
    induction bs with
    | nil => rfl
    | cons s rest ih =>
      rw [trySolidNew.go, List.find?]
      by_cases h1 : s.faces.isEmpty
      · have hok : (!shellOkB s) = true := by simp [shellOkB, h1]
        rw [if_pos h1, hok]
        simp [shellErr, h1]
      · by_cases h2 : s.connected
        · by_cases h3 : s.condition = .Closed
          · by_cases h4 : s.singularVertices.isEmpty
            · have hok : (!shellOkB s) = false := by simp [shellOkB, h1, h2, h3, h4]
              rw [if_neg h1, hok]
              simp only [h2, Bool.not_true, Bool.false_eq_true, if_false, h3]
              rw [if_neg (by simp), if_neg (by simp [h4])]
              exact ih
            · have hok : (!shellOkB s) = true := by simp [shellOkB, h4]
              rw [if_neg h1, hok]
              simp only [h2, Bool.not_true, Bool.false_eq_true, if_false, h3]
              rw [if_neg (by simp), if_pos (by simp [h4])]
              simp [shellErr, h1, h2, h3]
          · have hok : (!shellOkB s) = true := by simp [shellOkB, h3]
            rw [if_neg h1, hok]
            simp only [h2, Bool.not_true, Bool.false_eq_true, if_false]
            rw [if_pos (by simp [h3])]
            simp [shellErr, h1, h2, h3]
        · have hok : (!shellOkB s) = true := by simp [shellOkB, h2]
          rw [if_neg h1, hok]
          simp only [h2, Bool.not_false, if_true]
          simp [shellErr, h1, h2]
  constructor
  · intro α bs
    show (match trySolidNew.go bs with
      | some err => Except.error err
      | none => Except.ok bs) = _
    rw [main]
    cases bs.find? (fun s => !shellOkB s) <;> rfl
  · rfl

/-!
## C9 — tessellating the empty shell
-/

/-- C9: tessellating the empty shell never fails: for every operation
record and every tolerance the result is `some` of the empty shell. -/
theorem tessellation_empty_shell {P C S M : Type} (cops : CurveOps C P)
    (sops : SurfOps S P) (trim : S → Polyline → ℚ → M) (tol : ℚ) :
    tessellation cops sops trim ([] : Shl P C S) tol =
      some ([] : Shl P (List P) M) := rfl

/-!
## C7 and C10 — closed sweep of a vertex
-/

/-- The wire produced by `Vertex::closed_sweep` is as the claim describes:
`division` edges, each curve built by `cp` from its endpoints' points,
consecutive edges chained, the `i`-th edge starting at the `i`-th
`fp`-iterate of the swept point, first edge starting at the original vertex
and last edge ending at the original vertex itself; for `division = 1` it
is the single self-edge built by `cp`. -/
def SweptWireOk {P C : Type} (fp : P → P) (cp : P → P → C) (v : Vtx P)
    (d fresh : Nat) (w : List (Edg P C)) : Prop :=
  w.length = d ∧
  w.head?.map Edg.fr = some v ∧
  w.getLast?.map Edg.bk = some v ∧
  List.Chain' (fun e e' : Edg P C => e.bk = e'.fr) w ∧
  (∀ i, i < d →
    ((w.getD i ⟨0, v, v, cp v.pt v.pt, true⟩).fr.pt = fp^[i] v.pt ∧
     (w.getD i ⟨0, v, v, cp v.pt v.pt, true⟩).curve =
       cp (w.getD i ⟨0, v, v, cp v.pt v.pt, true⟩).fr.pt
         (w.getD i ⟨0, v, v, cp v.pt v.pt, true⟩).bk.pt ∧
     (w.getD i ⟨0, v, v, cp v.pt v.pt, true⟩).ori = true)) ∧
  (d = 1 → w = [⟨fresh, v, v, cp v.pt v.pt, true⟩])

theorem closedSweepGo_spec {P C : Type} (fp : P → P) (cp : P → P → C)
    (orig : Vtx P) :
    ∀ (n : Nat) (cur : Vtx P) (fresh : Nat),
      ((closedSweepGo fp cp orig cur n fresh).1.length = n + 1) ∧
      ((closedSweepGo fp cp orig cur n fresh).1.head?.map Edg.fr = some cur) ∧
      ((closedSweepGo fp cp orig cur n fresh).1.getLast?.map Edg.bk = some orig) ∧
      List.Chain' (fun e e' : Edg P C => e.bk = e'.fr)
        (closedSweepGo fp cp orig cur n fresh).1 ∧
      (∀ dflt : Edg P C, ∀ i, i ≤ n →
        (((closedSweepGo fp cp orig cur n fresh).1.getD i dflt).fr.pt = fp^[i] cur.pt ∧
         ((closedSweepGo fp cp orig cur n fresh).1.getD i dflt).curve =
           cp ((closedSweepGo fp cp orig cur n fresh).1.getD i dflt).fr.pt
             ((closedSweepGo fp cp orig cur n fresh).1.getD i dflt).bk.pt ∧
         ((closedSweepGo fp cp orig cur n fresh).1.getD i dflt).ori = true)) := by
  intro n
  induction n with
  | zero =>
    intro cur fresh
    refine ⟨rfl, rfl, rfl, List.chain'_singleton _, ?_⟩
    intro dflt i hi
    interval_cases i
    exact ⟨rfl, rfl, rfl⟩
  | succ n ih =>
    intro cur fresh
    obtain ⟨hlen, hhead, hlast, hchain, hpts⟩ := ih ⟨fresh, fp cur.pt⟩ (fresh + 2)
    have hw : (closedSweepGo fp cp orig cur (n + 1) fresh).1 =
        (⟨fresh + 1, cur, ⟨fresh, fp cur.pt⟩, cp cur.pt (fp cur.pt), true⟩ : Edg P C) ::
          (closedSweepGo fp cp orig ⟨fresh, fp cur.pt⟩ n (fresh + 2)).1 := rfl
    rw [hw] at *
    cases hrec : (closedSweepGo fp cp orig ⟨fresh, fp cur.pt⟩ n (fresh + 2)).1 with
    | nil =>
      rw [hrec] at hlen
      simp at hlen
    | cons w0 wr =>
      rw [hrec] at hlen hhead hlast hchain hpts
      refine ⟨by simpa using hlen, rfl, ?_, ?_, ?_⟩
      · rw [List.getLast?_cons_cons]
        exact hlast
      · rw [List.chain'_cons']
        refine ⟨?_, hchain⟩
        intro y hy
        have hy' : w0 = y := by simpa using hy
        subst hy'
        have hfr : w0.fr = (⟨fresh, fp cur.pt⟩ : Vtx P) := by simpa using hhead
        rw [hfr]
      · intro dflt i hi
        cases i with
        | zero => exact ⟨rfl, rfl, rfl⟩
        | succ j =>
          have hj : j ≤ n := by omega
          have hh := hpts dflt j hj
          simpa [List.getD_cons_succ, Function.iterate_succ_apply] using hh

/-- C7: for `division ≥ 1`, `Vertex::closed_sweep` returns a closed wire of
exactly `division` edges obtained by repeatedly mapping the previous vertex
with `fp` and connecting consecutive vertices with `cp`: the first edge
starts at `v` and the last edge connects back to `v` itself; for
`division = 1` the wire is the single edge connecting `v` to itself via
`cp`. -/
theorem closedSweepVertex_spec {P C S Sf : Type} (fp : P → P) (fc : C → C)
    (fs : Sf → Sf) (cp : P → P → C) (ce : C → C → S) (v : Vtx P)
    (d fresh : Nat) (hd : 1 ≤ d) :
    SweptWireOk fp cp v d fresh (closedSweepVertex fp fc fs cp ce v d fresh).1 := by
  obtain ⟨hlen, hhead, hlast, hchain, hpts⟩ := closedSweepGo_spec fp cp v (d - 1) v fresh
  have hd1 : d - 1 + 1 = d := Nat.succ_pred_eq_of_pos hd
  have heq : (closedSweepVertex fp fc fs cp ce v d fresh).1 =
      (closedSweepGo fp cp v v (d - 1) fresh).1 := rfl
  refine ⟨by rw [heq, hlen, hd1], by rw [heq]; exact hhead, by rw [heq]; exact hlast,
    by rw [heq]; exact hchain, ?_, ?_⟩
  · intro i hi
    rw [heq]
    exact hpts _ i (by omega)
  · intro h1
    subst h1
    rfl

/-- C7 (witness): the closed sweep of the vertex `⟨5, 0⟩` over `P = C = ℚ`
with `fp = (· + 1)`, `cp = (· - ·)` and `division = 3` satisfies the
specification. -/
theorem closedSweepVertex_spec_witness :
    1 ≤ 3 ∧
    SweptWireOk (fun p : ℚ => p + 1) (fun p q : ℚ => p - q) (⟨5, 0⟩ : Vtx ℚ) 3 10
      (closedSweepVertex (fun p : ℚ => p + 1) (fun c : ℚ => c)
        (fun s : ℚ => s) (fun p q : ℚ => p - q) (fun c _ : ℚ => c)
        (⟨5, 0⟩ : Vtx ℚ) 3 10).1 :=
  ⟨by omega,
   closedSweepVertex_spec (fun p : ℚ => p + 1) (fun c : ℚ => c)
     (fun s : ℚ => s) (fun p q : ℚ => p - q) (fun c _ : ℚ => c)
     (⟨5, 0⟩ : Vtx ℚ) 3 10 (by omega)⟩

/-- C10: `Vertex::closed_sweep` never invokes the curve-trajectory,
surface-trajectory or curve-connecting callbacks: two runs differing only
in those three callbacks produce identical results. -/
theorem closedSweepVertex_ignores_curve_callbacks {P C S Sf : Type}
    (fp : P → P) (fc₁ fc₂ : C → C) (fs₁ fs₂ : Sf → Sf) (cp : P → P → C)
    (ce₁ ce₂ : C → C → S) (v : Vtx P) (d fresh : Nat) :
    closedSweepVertex fp fc₁ fs₁ cp ce₁ v d fresh =
      closedSweepVertex fp fc₂ fs₂ cp ce₂ v d fresh := rfl

/-!
## C1 and C2 — the tessellator's shared-edge memo

The fold invariants of the `edge_map` memo: monotone growth, injectivity of
the assigned output identities, and provenance of every stored polyline
edge from `parameter_division` of an input occurrence.
-/

/-- All edge occurrences reachable from a shell's face boundaries. -/
def shellEdges {P C S : Type} (shell : Shl P C S) : List (Edg P C) :=
  shell.flatMap fun f => f.bnd.flatMap fun w => w

/-- The memo `m'` preserves every association of `m`. -/
def MapExt {P : Type} (m m' : List (Nat × Edg P (List P))) : Prop :=
  ∀ k v, look m k = some v → look m' k = some v

/-- Distinct input-edge identities receive output edges with distinct
identities. -/
def MapInj {P : Type} (m : List (Nat × Edg P (List P))) : Prop :=
  ∀ k₁ k₂ e₁ e₂, look m k₁ = some e₁ → look m k₂ = some e₂ →
    e₁.id = e₂.id → k₁ = k₂

/-- All output identities recorded in the memo are below the fresh
counter. -/
def IdsBelow {P : Type} (m : List (Nat × Edg P (List P))) (n : Nat) : Prop :=
  ∀ k ne, look m k = some ne → ne.id < n

/-- Every memo entry is the `parameter_division` discretization of an input
occurrence of the keyed edge, stored in canonical (forward) orientation. -/
def MapFrom {P C : Type} (cops : CurveOps C P) (tol : ℚ) (A : List (Edg P C))
    (m : List (Nat × Edg P (List P))) : Prop :=
  ∀ k ne, look m k = some ne → ∃ e, e ∈ A ∧ e.id = k ∧ ne.ori = true ∧
    ne.curve = polyOf cops tol e

/-- An input-edge occurrence `ie` and the output edge `oe` the tessellator
placed for it: `oe` is (a handle to) the memo entry for `ie.id` — same
identity, same polyline — and, when the input edge's endpoints are
distinct, `oe` is the entry inverted exactly when `ie` is inverted. -/
def EdgeMatch {P C : Type} (m : List (Nat × Edg P (List P))) (ie : Edg P C)
    (oe : Edg P (List P)) : Prop :=
  ∃ ne, look m ie.id = some ne ∧ ne.ori = true ∧
    oe.id = ne.id ∧ oe.curve = ne.curve ∧
    (oe = ne ∨ oe = ne.inverse) ∧
    (ie.fr.id ≠ ie.bk.id → oe = if ie.ori then ne else ne.inverse)

theorem edgeMatch_mono {P C : Type} {m m' : List (Nat × Edg P (List P))}
    (hext : MapExt m m') {ie : Edg P C} {oe : Edg P (List P)}
    (h : EdgeMatch m ie oe) : EdgeMatch m' ie oe := by
  obtain ⟨ne, h1, hrest⟩ := h
  exact ⟨ne, hext _ _ h1, hrest⟩

theorem mapExt_refl {P : Type} (m : List (Nat × Edg P (List P))) : MapExt m m :=
  fun _ _ h => h

theorem mapExt_trans {P : Type} {m₁ m₂ m₃ : List (Nat × Edg P (List P))}
    (h1 : MapExt m₁ m₂) (h2 : MapExt m₂ m₃) : MapExt m₁ m₃ :=
  fun k v h => h2 k v (h1 k v h)

theorem processEdge_spec {P C : Type} {cops : CurveOps C P} {tol : ℚ}
    {vmap : List (Nat × Vtx P)} {A : List (Edg P C)} {st st' : TessState P}
    {e : Edg P C} {oe : Edg P (List P)}
    (hres : processEdge cops tol vmap st e = (st', oe)) (hA : e ∈ A)
    (hinj : MapInj st.emap) (hbel : IdsBelow st.emap st.fresh)
    (hfrom : MapFrom cops tol A st.emap) :
    MapExt st.emap st'.emap ∧ st.fresh ≤ st'.fresh ∧
    MapInj st'.emap ∧ IdsBelow st'.emap st'.fresh ∧
    MapFrom cops tol A st'.emap ∧ EdgeMatch st'.emap e oe := by
  cases hl : look st.emap e.id with
  | some ne =>
    have heq : processEdge cops tol vmap st e =
        (st, if e.fr.id = e.front.id then ne else ne.inverse) := by
      show (match look st.emap e.id with
        | some ne => (st, if e.fr.id = e.front.id then ne else ne.inverse)
        | none =>
          (⟨(e.id, ⟨st.fresh, (look vmap e.fr.id).getD ⟨0, e.fr.pt⟩,
              (look vmap e.bk.id).getD ⟨0, e.bk.pt⟩, polyOf cops tol e, true⟩) :: st.emap,
            st.fresh + 1⟩,
           if e.ori then
             (⟨st.fresh, (look vmap e.fr.id).getD ⟨0, e.fr.pt⟩,
               (look vmap e.bk.id).getD ⟨0, e.bk.pt⟩, polyOf cops tol e, true⟩ : Edg P (List P))
           else
             (⟨st.fresh, (look vmap e.fr.id).getD ⟨0, e.fr.pt⟩,
               (look vmap e.bk.id).getD ⟨0, e.bk.pt⟩, polyOf cops tol e, true⟩ : Edg P (List P)).inverse)) = _
      rw [hl]
    rw [heq] at hres
    injection hres with h1 h2
    subst h1
    obtain ⟨e', -, -, hori, -⟩ := hfrom _ _ hl
    refine ⟨mapExt_refl _, le_refl _, hinj, hbel, hfrom, ne, hl, hori, ?_, ?_, ?_, ?_⟩
    · by_cases hc : e.fr.id = e.front.id
      · rw [if_pos hc] at h2
        rw [← h2]
      · rw [if_neg hc] at h2
        rw [← h2]
        rfl
    · by_cases hc : e.fr.id = e.front.id
      · rw [if_pos hc] at h2
        rw [← h2]
      · rw [if_neg hc] at h2
        rw [← h2]
        rfl
    · by_cases hc : e.fr.id = e.front.id
      · rw [if_pos hc] at h2
        exact Or.inl h2.symm
      · rw [if_neg hc] at h2
        exact Or.inr h2.symm
    · intro hne
      cases ho : e.ori with
      | true =>
        have hc : e.fr.id = e.front.id := by
          show e.fr.id = (if e.ori then e.fr else e.bk).id
          rw [ho]
          rfl
        rw [if_pos hc] at h2
        rw [← h2, if_pos rfl]
      | false =>
        have hc : ¬(e.fr.id = e.front.id) := by
          show ¬(e.fr.id = (if e.ori then e.fr else e.bk).id)
          rw [ho]
          exact hne
        rw [if_neg hc] at h2
        rw [← h2]
        rfl
  | none =>
    have heq : processEdge cops tol vmap st e =
        (⟨(e.id, ⟨st.fresh, (look vmap e.fr.id).getD ⟨0, e.fr.pt⟩,
            (look vmap e.bk.id).getD ⟨0, e.bk.pt⟩, polyOf cops tol e, true⟩) :: st.emap,
          st.fresh + 1⟩,
         if e.ori then
           (⟨st.fresh, (look vmap e.fr.id).getD ⟨0, e.fr.pt⟩,
             (look vmap e.bk.id).getD ⟨0, e.bk.pt⟩, polyOf cops tol e, true⟩ : Edg P (List P))
         else
           (⟨st.fresh, (look vmap e.fr.id).getD ⟨0, e.fr.pt⟩,
             (look vmap e.bk.id).getD ⟨0, e.bk.pt⟩, polyOf cops tol e, true⟩ : Edg P (List P)).inverse) := by
      show (match look st.emap e.id with
        | some ne => (st, if e.fr.id = e.front.id then ne else ne.inverse)
        | none =>
          (⟨(e.id, ⟨st.fresh, (look vmap e.fr.id).getD ⟨0, e.fr.pt⟩,
              (look vmap e.bk.id).getD ⟨0, e.bk.pt⟩, polyOf cops tol e, true⟩) :: st.emap,
            st.fresh + 1⟩,
           if e.ori then
             (⟨st.fresh, (look vmap e.fr.id).getD ⟨0, e.fr.pt⟩,
               (look vmap e.bk.id).getD ⟨0, e.bk.pt⟩, polyOf cops tol e, true⟩ : Edg P (List P))
           else
             (⟨st.fresh, (look vmap e.fr.id).getD ⟨0, e.fr.pt⟩,
               (look vmap e.bk.id).getD ⟨0, e.bk.pt⟩, polyOf cops tol e, true⟩ : Edg P (List P)).inverse)) = _
      rw [hl]
    set ne0 : Edg P (List P) :=
      ⟨st.fresh, (look vmap e.fr.id).getD ⟨0, e.fr.pt⟩,
        (look vmap e.bk.id).getD ⟨0, e.bk.pt⟩, polyOf cops tol e, true⟩ with hne0
    rw [heq] at hres
    injection hres with h1 h2
    have hlook' : ∀ k, look st'.emap k = if k = e.id then some ne0 else look st.emap k := by
      intro k
      rw [← h1]
      rfl
    have hself : look st'.emap e.id = some ne0 := by
      rw [hlook' e.id, if_pos rfl]
    refine ⟨?_, ?_, ?_, ?_, ?_, ?_⟩
    · intro k v hkv
      rw [hlook' k]
      by_cases hk : k = e.id
      · rw [hk] at hkv
        rw [hkv] at hl
        exact absurd hl (by simp)
      · rw [if_neg hk]
        exact hkv
    · rw [← h1]
      exact Nat.le_succ _
    · intro k₁ k₂ e₁ e₂ hk₁ hk₂ hid
      rw [hlook' k₁] at hk₁
      rw [hlook' k₂] at hk₂
      by_cases h₁ : k₁ = e.id <;> by_cases h₂ : k₂ = e.id
      · rw [h₁, h₂]
      · rw [if_pos h₁] at hk₁
        rw [if_neg h₂] at hk₂
        injection hk₁ with hk₁'
        have hlt := hbel _ _ hk₂
        rw [← hk₁'] at hid
        have : ne0.id = st.fresh := rfl
        omega
      · rw [if_neg h₁] at hk₁
        rw [if_pos h₂] at hk₂
        injection hk₂ with hk₂'
        have hlt := hbel _ _ hk₁
        rw [← hk₂'] at hid
        have : ne0.id = st.fresh := rfl
        omega
      · rw [if_neg h₁] at hk₁
        rw [if_neg h₂] at hk₂
        exact hinj _ _ _ _ hk₁ hk₂ hid
    · intro k nek hk
      rw [hlook' k] at hk
      rw [← h1]
      show nek.id < st.fresh + 1
      by_cases hke : k = e.id
      · rw [if_pos hke] at hk
        injection hk with hk'
        rw [← hk']
        show st.fresh < st.fresh + 1
        omega
      · rw [if_neg hke] at hk
        have := hbel _ _ hk
        omega
    · intro k nek hk
      rw [hlook' k] at hk
      by_cases hke : k = e.id
      · rw [if_pos hke] at hk
        injection hk with hk'
        exact ⟨e, hA, hke.symm ▸ rfl, by rw [← hk'], by rw [← hk']⟩
      · rw [if_neg hke] at hk
        exact hfrom _ _ hk
    · have h2' : oe = if e.ori then ne0 else ne0.inverse := h2.symm
      refine ⟨ne0, hself, rfl, ?_, ?_, ?_, fun _ => h2'⟩
      · rw [h2']
        cases ho : e.ori with
        | true => rfl
        | false => rfl
      · rw [h2']
        cases ho : e.ori with
        | true => rfl
        | false => rfl
      · rw [h2']
        cases ho : e.ori with
        | true => exact Or.inl rfl
        | false => exact Or.inr rfl

theorem processWire_spec {P C : Type} {cops : CurveOps C P} {tol : ℚ}
    {vmap : List (Nat × Vtx P)} {A : List (Edg P C)} :
    ∀ {st st' : TessState P} {w : WireT P C} {oes : List (Edg P (List P))},
    processWire cops tol vmap st w = (st', oes) →
    (∀ e ∈ w, e ∈ A) →
    MapInj st.emap → IdsBelow st.emap st.fresh → MapFrom cops tol A st.emap →
    MapExt st.emap st'.emap ∧ st.fresh ≤ st'.fresh ∧
    MapInj st'.emap ∧ IdsBelow st'.emap st'.fresh ∧
    MapFrom cops tol A st'.emap ∧
    List.Forall₂ (EdgeMatch st'.emap) w oes := by
  intro st st' w
  induction w generalizing st with
  | nil =>
    intro oes hres hA hinj hbel hfrom
    injection hres with h1 h2
    subst h1
    rw [← h2]
    exact ⟨mapExt_refl _, le_refl _, hinj, hbel, hfrom, List.Forall₂.nil⟩
  | cons e rest ih =>
    intro oes hres hA hinj hbel hfrom
    rcases hpe : processEdge cops tol vmap st e with ⟨st₁, oe⟩
    rcases hpw : processWire cops tol vmap st₁ rest with ⟨st₂, oes'⟩
    have heq : processWire cops tol vmap st (e :: rest) = (st₂, oe :: oes') := by
      show (match processEdge cops tol vmap st e with
        | (stA, oeA) =>
          match processWire cops tol vmap stA rest with
          | (stB, oesB) => (stB, oeA :: oesB)) = _
      rw [hpe]
      show (match processWire cops tol vmap st₁ rest with
        | (stB, oesB) => (stB, oe :: oesB)) = _
      rw [hpw]
    rw [heq] at hres
    injection hres with h1 h2
    subst h1
    rw [← h2]
    obtain ⟨hext₁, hfr₁, hinj₁, hbel₁, hfrom₁, hm₁⟩ :=
      processEdge_spec hpe (hA e (List.mem_cons_self e rest)) hinj hbel hfrom
    obtain ⟨hext₂, hfr₂, hinj₂, hbel₂, hfrom₂, hm₂⟩ :=
      ih hpw (fun x hx => hA x (List.mem_cons_of_mem e hx)) hinj₁ hbel₁ hfrom₁
    exact ⟨mapExt_trans hext₁ hext₂, le_trans hfr₁ hfr₂, hinj₂, hbel₂, hfrom₂,
      List.Forall₂.cons (edgeMatch_mono hext₂ hm₁) hm₂⟩

theorem processBnds_spec {P C : Type} {cops : CurveOps C P} {tol : ℚ}
    {vmap : List (Nat × Vtx P)} {A : List (Edg P C)} :
    ∀ {st st' : TessState P} {bnds : List (WireT P C)}
      {ows : List (List (Edg P (List P)))},
    processBnds cops tol vmap st bnds = (st', ows) →
    (∀ w ∈ bnds, ∀ e ∈ w, e ∈ A) →
    MapInj st.emap → IdsBelow st.emap st.fresh → MapFrom cops tol A st.emap →
    MapExt st.emap st'.emap ∧ st.fresh ≤ st'.fresh ∧
    MapInj st'.emap ∧ IdsBelow st'.emap st'.fresh ∧
    MapFrom cops tol A st'.emap ∧
    List.Forall₂ (List.Forall₂ (EdgeMatch st'.emap)) bnds ows := by
  intro st st' bnds
  induction bnds generalizing st with
  | nil =>
    intro ows hres hA hinj hbel hfrom
    injection hres with h1 h2
    subst h1
    rw [← h2]
    exact ⟨mapExt_refl _, le_refl _, hinj, hbel, hfrom, List.Forall₂.nil⟩
  | cons w rest ih =>
    intro ows hres hA hinj hbel hfrom
    rcases hpw : processWire cops tol vmap st w with ⟨st₁, ow⟩
    rcases hpb : processBnds cops tol vmap st₁ rest with ⟨st₂, ows'⟩
    have heq : processBnds cops tol vmap st (w :: rest) = (st₂, ow :: ows') := by
      show (match processWire cops tol vmap st w with
        | (stA, owA) =>
          match processBnds cops tol vmap stA rest with
          | (stB, owsB) => (stB, owA :: owsB)) = _
      rw [hpw]
      show (match processBnds cops tol vmap st₁ rest with
        | (stB, owsB) => (stB, ow :: owsB)) = _
      rw [hpb]
    rw [heq] at hres
    injection hres with h1 h2
    subst h1
    rw [← h2]
    obtain ⟨hext₁, hfr₁, hinj₁, hbel₁, hfrom₁, hm₁⟩ :=
      processWire_spec hpw (hA w (List.mem_cons_self w rest)) hinj hbel hfrom
    obtain ⟨hext₂, hfr₂, hinj₂, hbel₂, hfrom₂, hm₂⟩ :=
      ih hpb (fun x hx => hA x (List.mem_cons_of_mem w hx)) hinj₁ hbel₁ hfrom₁
    refine ⟨mapExt_trans hext₁ hext₂, le_trans hfr₁ hfr₂, hinj₂, hbel₂, hfrom₂,
      List.Forall₂.cons ?_ hm₂⟩
    exact List.Forall₂.imp (fun a b hab => edgeMatch_mono hext₂ hab) hm₁

/-- One output face matches one input face: same orientation bit and
edge-by-edge matched boundaries. -/
def FaceMatch {P C S M : Type} (m : List (Nat × Edg P (List P)))
    (f : Fc P C S) (g : Fc P (List P) M) : Prop :=
  g.ori = f.ori ∧ List.Forall₂ (List.Forall₂ (EdgeMatch m)) f.bnd g.bnd

theorem tessFaces_spec {P C S M : Type} {cops : CurveOps C P}
    {sops : SurfOps S P} {trim : S → Polyline → ℚ → M} {tol : ℚ}
    {vmap : List (Nat × Vtx P)} {A : List (Edg P C)} :
    ∀ {st : TessState P} {faces : Shl P C S} {out : Shl P (List P) M},
    tessFaces cops sops trim tol vmap st faces = some out →
    (∀ f ∈ faces, ∀ w ∈ f.bnd, ∀ e ∈ w, e ∈ A) →
    MapInj st.emap → IdsBelow st.emap st.fresh → MapFrom cops tol A st.emap →
    ∃ m, MapExt st.emap m ∧ MapInj m ∧ MapFrom cops tol A m ∧
      List.Forall₂ (FaceMatch m) faces out := by
  intro st faces
  induction faces generalizing st with
  | nil =>
    intro out hres hA hinj hbel hfrom
    injection hres with h1
    subst h1
    exact ⟨st.emap, mapExt_refl _, hinj, hfrom, List.Forall₂.nil⟩
  | cons f rest ih =>
    intro out hres hA hinj hbel hfrom
    rcases hpb : processBnds cops tol vmap st f.bnd with ⟨st₁, ws⟩
    rcases haw : addWires sops f.surface ⟨[], []⟩ ws with ⟨pl, ok⟩
    have heq : tessFaces cops sops trim tol vmap st (f :: rest) =
        (if ok then
          match tessFaces cops sops trim tol vmap st₁ rest with
          | none => none
          | some out' => some (⟨ws, trim f.surface pl tol, f.ori⟩ :: out')
        else none) := by
      show (match processBnds cops tol vmap st f.bnd with
        | (st', ws') =>
          match addWires sops f.surface ⟨[], []⟩ ws' with
          | (pl', ok') =>
            if ok' then
              match tessFaces cops sops trim tol vmap st' rest with
              | none => none
              | some out' =>
                some ((⟨ws', trim f.surface pl' tol, f.ori⟩ : Fc P (List P) M) :: out')
            else none) = _
      rw [hpb]
      show (match addWires sops f.surface ⟨[], []⟩ ws with
        | (pl', ok') =>
          if ok' then
            match tessFaces cops sops trim tol vmap st₁ rest with
            | none => none
            | some out' =>
              some ((⟨ws, trim f.surface pl' tol, f.ori⟩ : Fc P (List P) M) :: out')
          else none) = _
      rw [haw]
    rw [heq] at hres
    cases ok with
    | false => exact absurd hres (by simp)
    | true =>
      rw [if_pos rfl] at hres
      cases hrec : tessFaces cops sops trim tol vmap st₁ rest with
      | none =>
        rw [hrec] at hres
        exact absurd hres (by simp)
      | some out' =>
        rw [hrec] at hres
        injection hres with h1
        rw [← h1]
        obtain ⟨hext₁, hfr₁, hinj₁, hbel₁, hfrom₁, hm₁⟩ :=
          processBnds_spec hpb (hA f (List.mem_cons_self f rest)) hinj hbel hfrom
        obtain ⟨m, hext₂, hinj₂, hfrom₂, hm₂⟩ :=
          ih hrec (fun x hx => hA x (List.mem_cons_of_mem f hx)) hinj₁ hbel₁ hfrom₁
        refine ⟨m, mapExt_trans hext₁ hext₂, hinj₂, hfrom₂,
          List.Forall₂.cons ⟨rfl, ?_⟩ hm₂⟩
        exact List.Forall₂.imp
          (fun a b hab => List.Forall₂.imp (fun a' b' hab' => edgeMatch_mono hext₂ hab') hab) hm₁

/-- The watertightness conclusion of the amended C1: face count preserved,
and one shared memo `m` matching every edge occurrence, with an injective
identity assignment, provenance of every memoized polyline from one
discretization, and orientation-respecting traversal for edges with
distinct endpoints. -/
def WatertightSpec {P C S M : Type} (cops : CurveOps C P) (tol : ℚ)
    (shell : Shl P C S) (out : Shl P (List P) M) : Prop :=
  out.length = shell.length ∧
  ∃ m, MapInj m ∧ MapFrom cops tol (shellEdges shell) m ∧
    List.Forall₂ (FaceMatch m) shell out ∧
    (∀ (ie₁ ie₂ : Edg P C) (oe₁ oe₂ : Edg P (List P)),
      EdgeMatch m ie₁ oe₁ → EdgeMatch m ie₂ oe₂ →
      ((oe₁.id = oe₂.id ↔ ie₁.id = ie₂.id) ∧
       (ie₁.id = ie₂.id → oe₁.curve = oe₂.curve ∧ oe₁.id = oe₂.id))) ∧
    (∀ (ie : Edg P C) (oe : Edg P (List P)), EdgeMatch m ie oe →
      ie.fr.id ≠ ie.bk.id →
      oe.orientedCurve = if ie.ori then oe.curve else oe.curve.reverse)

/-- C1 (amended): whenever `tessellation` returns a shell, the output has
the same number of faces as the input and there is a single
identity-to-edge memo `m` such that

* every boundary-edge occurrence of every face is matched, via `m`, to the
  output edge placed for it (`FaceMatch`): the output edge is a handle to
  the memo entry for the input edge's identity — same identity, same
  polyline — so every face referencing an input edge references the *same*
  output edge, and each memo entry is the `parameter_division`
  discretization of an occurrence of that edge (`MapFrom`: each input edge
  is discretized once);
* two occurrences receive output edges with equal identity exactly when the
  input edges' identities are equal (the edge-sharing graph is preserved),
  and shared occurrences carry pointwise-identical polylines;
* when the input edge's front and back vertices are distinct, the
  occurrence's traversed polyline is the memoized polyline, reversed
  exactly when the face uses the edge in inverse orientation.  (For a
  self-loop edge — equal front and back — the memo-hit path of the source
  compares `absolute_front == front`, which holds regardless of
  orientation, so the stored edge is referenced forward; the claim's
  unconditional reversal fails there, see the counterexample.) -/
theorem tessellation_watertight {P C S M : Type} (cops : CurveOps C P)
    (sops : SurfOps S P) (trim : S → Polyline → ℚ → M) (shell : Shl P C S)
    (tol : ℚ) (out : Shl P (List P) M)
    (h : tessellation cops sops trim shell tol = some out) :
    WatertightSpec cops tol shell out := by
  unfold WatertightSpec
  rcases hbv : buildVmapGo (shellVertices shell) [] 0 with ⟨vm, fr⟩
  have heq : tessellation cops sops trim shell tol =
      tessFaces cops sops trim tol vm ⟨[], fr⟩ shell := by
    show (match buildVmapGo (shellVertices shell) [] 0 with
      | (vmap, fresh) => tessFaces cops sops trim tol vmap ⟨[], fresh⟩ shell) = _
    rw [hbv]
  rw [heq] at h
  have hinj0 : MapInj ([] : List (Nat × Edg P (List P))) := by
    intro k₁ k₂ e₁ e₂ h₁ h₂ hid
    exact Option.noConfusion h₁
  have hbel0 : IdsBelow ([] : List (Nat × Edg P (List P))) fr := by
    intro k ne h₁
    exact Option.noConfusion h₁
  have hfrom0 : MapFrom cops tol (shellEdges shell) ([] : List (Nat × Edg P (List P))) := by
    intro k ne h₁
    exact Option.noConfusion h₁
  have hA : ∀ f ∈ shell, ∀ w ∈ f.bnd, ∀ e ∈ w, e ∈ shellEdges shell := by
    intro f hf w hw e he
    rw [shellEdges, List.mem_flatMap]
    exact ⟨f, hf, List.mem_flatMap.mpr ⟨w, hw, he⟩⟩
  obtain ⟨m, hext, hinj, hfrom, hmatch⟩ := tessFaces_spec h hA hinj0 hbel0 hfrom0
  refine ⟨hmatch.length_eq.symm, m, hinj, hfrom, hmatch, ?_, ?_⟩
  · rintro ie₁ ie₂ oe₁ oe₂ ⟨ne₁, hl₁, hori₁, hid₁, hcur₁, -, -⟩ ⟨ne₂, hl₂, hori₂, hid₂, hcur₂, -, -⟩
    have hshare : ie₁.id = ie₂.id → ne₁ = ne₂ := by
      intro hie
      rw [hie] at hl₁
      rw [hl₁] at hl₂
      exact Option.some.inj hl₂
    constructor
    · constructor
      · intro hoe
        rw [hid₁, hid₂] at hoe
        exact hinj _ _ _ _ hl₁ hl₂ hoe
      · intro hie
        rw [hid₁, hid₂, hshare hie]
    · intro hie
      rw [hid₁, hid₂, hcur₁, hcur₂, hshare hie]
      exact ⟨rfl, rfl⟩
  · rintro ie oe ⟨ne, hl, hori, hid, hcur, -, hcond⟩ hne
    have hoe := hcond hne
    cases ho : ie.ori with
    | true =>
      rw [ho, if_pos rfl] at hoe
      rw [if_pos rfl, hoe]
      show (if ne.ori then ne.curve else ne.curve.reverse) = ne.curve
      rw [hori]
      rfl
    | false =>
      rw [ho] at hoe
      have hoe' : oe = ne.inverse := hoe
      rw [if_neg (by simp), hoe']
      show (if ne.inverse.ori then ne.inverse.curve else ne.inverse.curve.reverse) =
        ne.inverse.curve.reverse
      rw [Edg.inverse_ori, hori]
      rfl

/-!
### Concrete tessellation runs

Trait instantiations over `P = ℚ`, `C = S = M = Unit`: the curve's
discretization and the surface's parameter search are supplied as the
caller-side trait implementations the generic source code is parametric
over.
-/

/-- Curve operations for the ordinary witness run: range `(0,1)`, division
`[0,1]`, identity embedding of parameters as points. -/
def copsV : CurveOps Unit ℚ := ⟨fun _ => (0, 1), fun _ _ _ => [0, 1], fun _ t => t⟩

/-- Surface operations whose parameter search always succeeds at the
origin. -/
def sopsV : SurfOps Unit ℚ := ⟨fun _ _ _ _ => some (0, 0), fun _ _ _ => ([], [])⟩

/-- Trivial mesh payload standing for `trimming_tessellation`'s output. -/
def trimV : Unit → Polyline → ℚ → Unit := fun _ _ _ => ()

/-- An ordinary edge with distinct endpoints, shared by two faces, the
second of which references it inverted. -/
def eV : Edg ℚ Unit := ⟨10, ⟨0, 0⟩, ⟨1, 1⟩, (), true⟩

/-- Two-face shell sharing `eV`, forward in the first face and inverted in
the second. -/
def shellV : Shl ℚ Unit Unit := [⟨[[eV]], (), true⟩, ⟨[[eV.inverse]], (), true⟩]

/-- The output edge the tessellator memoizes for `eV`. -/
def neV : Edg ℚ (List ℚ) := ⟨2, ⟨0, 0⟩, ⟨1, 1⟩, [0, 1], true⟩

/-- The tessellated shell for `shellV`. -/
def outV : Shl ℚ (List ℚ) Unit := [⟨[[neV]], (), true⟩, ⟨[[neV.inverse]], (), true⟩]

/-- C1 (witness): the amended claim applied to the two-face shell sharing
one ordinary edge. -/
theorem tessellation_watertight_witness :
    tessellation copsV sopsV trimV shellV 1 = some outV ∧
    WatertightSpec copsV 1 shellV outV :=
  ⟨by decide, tessellation_watertight copsV sopsV trimV shellV 1 outV (by decide)⟩

/-- Curve operations for the self-loop run: a closed discretization
`[0, 1, 2, 0]` (first point equals last). -/
def copsX : CurveOps Unit ℚ := ⟨fun _ => (0, 3), fun _ _ _ => [0, 1, 2, 0], fun _ t => t⟩

/-- A self-loop edge occurrence — front and back are the same vertex, as an
`Edge` on a closed curve allows — referenced in *inverse* orientation. -/
def eX : Edg ℚ Unit := ⟨5, ⟨0, 0⟩, ⟨0, 0⟩, (), false⟩

/-- Two faces, each referencing the self-loop edge inverted. -/
def shellX : Shl ℚ Unit Unit := [⟨[[eX]], (), true⟩, ⟨[[eX]], (), true⟩]

/-- The output edge memoized for the self-loop. -/
def neX : Edg ℚ (List ℚ) := ⟨1, ⟨0, 0⟩, ⟨0, 0⟩, [0, 1, 2, 0], true⟩

/-- C1 (counterexample): on a shell whose two faces both reference a
self-loop edge in inverse orientation, tessellation succeeds and both
output faces share the same output edge, but only the first (memoizing)
occurrence is inverted: the second face's boundary traverses the memoized
polyline *forward*, not reversed, although its input occurrence is
inverted and the polyline is not a palindrome — refuting the claim's
unconditional "reversed when a face uses the edge in inverse
orientation". -/
theorem tessellation_selfloop_not_reversed :
    tessellation copsX sopsV trimV shellX 1 =
      some [⟨[[neX.inverse]], (), true⟩, ⟨[[neX]], (), true⟩] ∧
    eX.ori = false ∧
    neX.inverse.orientedCurve = ([0, 1, 2, 0] : List ℚ).reverse ∧
    neX.orientedCurve = ([0, 1, 2, 0] : List ℚ) ∧
    ([0, 1, 2, 0] : List ℚ).reverse ≠ [0, 1, 2, 0] ∧
    neX.inverse.id = neX.id := by
  refine ⟨by decide, rfl, by decide, by decide, by decide, rfl⟩

/-!
### C2 — the failure policy
-/

/-- The wire lists each face receives from the edge pass, paired with the
face's surface, for every face of the shell (a total restatement of the
face loop without the early `?` return). -/
def tessWireLists {P C S : Type} (cops : CurveOps C P) (tol : ℚ)
    (vmap : List (Nat × Vtx P)) :
    TessState P → Shl P C S → List (List (List (Edg P (List P))) × S)
  | _, [] => []
  | st, f :: rest =>
    let (st', ws) := processBnds cops tol vmap st f.bnd
    (ws, f.surface) :: tessWireLists cops tol vmap st' rest

/-- Whether a face's boundary wires project to parameter space: the
conjunction of `add_wire` successes, i.e. every boundary polyline point is
found by `search_parameter` with the previous hint or by the no-hint
fallback. -/
def faceProjOk {S P : Type} (sops : SurfOps S P)
    (entry : List (List (Edg P (List P))) × S) : Bool :=
  (addWires sops entry.2 ⟨[], []⟩ entry.1).2

theorem tessFaces_characterization {P C S M : Type} {cops : CurveOps C P}
    {sops : SurfOps S P} {trim : S → Polyline → ℚ → M} {tol : ℚ}
    {vmap : List (Nat × Vtx P)} :
    ∀ (st : TessState P) (faces : Shl P C S),
    (tessFaces cops sops trim tol vmap st faces = none ↔
      ∃ entry ∈ tessWireLists cops tol vmap st faces, faceProjOk sops entry = false) ∧
    (∀ out : Shl P (List P) M,
      tessFaces cops sops trim tol vmap st faces = some out →
      out.length = faces.length ∧
      List.Forall₂ (fun (f : Fc P C S) (g : Fc P (List P) M) =>
        ∃ pl, g.surface = trim f.surface pl tol ∧ g.ori = f.ori) faces out) := by
  intro st faces
  induction faces generalizing st with
  | nil =>
    have hnil : tessFaces cops sops trim tol vmap st ([] : Shl P C S) =
        some ([] : Shl P (List P) M) := rfl
    constructor
    · rw [hnil]
      constructor
      · intro hcon
        exact Option.noConfusion hcon
      · rintro ⟨entry, hmem, -⟩
        exact absurd hmem (List.not_mem_nil entry)
    · intro out hres
      rw [hnil] at hres
      injection hres with h1
      subst h1
      exact ⟨rfl, List.Forall₂.nil⟩
  | cons f rest ih =>
    rcases hpb : processBnds cops tol vmap st f.bnd with ⟨st₁, ws⟩
    rcases haw : addWires sops f.surface ⟨[], []⟩ ws with ⟨pl, ok⟩
    have heq : tessFaces cops sops trim tol vmap st (f :: rest) =
        (if ok then
          match tessFaces cops sops trim tol vmap st₁ rest with
          | none => none
          | some out' => some (⟨ws, trim f.surface pl tol, f.ori⟩ :: out')
        else none) := by
      show (match processBnds cops tol vmap st f.bnd with
        | (st', ws') =>
          match addWires sops f.surface ⟨[], []⟩ ws' with
          | (pl', ok') =>
            if ok' then
              match tessFaces cops sops trim tol vmap st' rest with
              | none => none
              | some out' =>
                some ((⟨ws', trim f.surface pl' tol, f.ori⟩ : Fc P (List P) M) :: out')
            else none) = _
      rw [hpb]
      show (match addWires sops f.surface ⟨[], []⟩ ws with
        | (pl', ok') =>
          if ok' then
            match tessFaces cops sops trim tol vmap st₁ rest with
            | none => none
            | some out' =>
              some ((⟨ws, trim f.surface pl' tol, f.ori⟩ : Fc P (List P) M) :: out')
          else none) = _
      rw [haw]
    have hwl : tessWireLists cops tol vmap st (f :: rest) =
        (ws, f.surface) :: tessWireLists cops tol vmap st₁ rest := by
      show (match processBnds cops tol vmap st f.bnd with
        | (st', ws') => (ws', f.surface) :: tessWireLists cops tol vmap st' rest) = _
      rw [hpb]
    have hproj : faceProjOk sops (ws, f.surface) = ok := by
      show (addWires sops f.surface ⟨[], []⟩ ws).2 = ok
      rw [haw]
    cases ok with
    | false =>
      rw [if_neg (by simp)] at heq
      constructor
      · rw [heq, hwl]
        constructor
        · intro _
          exact ⟨(ws, f.surface), List.mem_cons_self _ _, hproj⟩
        · intro _
          rfl
      · intro out hres
        rw [heq] at hres
        exact Option.noConfusion hres
    | true =>
      rw [if_pos rfl] at heq
      constructor
      · rw [heq, hwl]
        constructor
        · intro hnone
          cases hrec : tessFaces cops sops trim tol vmap st₁ rest with
          | none =>
            obtain ⟨entry, hmem, hp⟩ := ((ih st₁).1).mp hrec
            exact ⟨entry, List.mem_cons_of_mem _ hmem, hp⟩
          | some out' =>
            rw [hrec] at hnone
            exact Option.noConfusion hnone
        · rintro ⟨entry, hmem, hp⟩
          rcases List.mem_cons.mp hmem with hhd | htl
          · rw [hhd] at hp
            rw [hproj] at hp
            exact Bool.noConfusion hp
          · have : tessFaces cops sops trim tol vmap st₁ rest = none :=
              ((ih st₁).1).mpr ⟨entry, htl, hp⟩
            rw [this]
      · intro out hres
        rw [heq] at hres
        cases hrec : tessFaces cops sops trim tol vmap st₁ rest with
        | none =>
          rw [hrec] at hres
          exact Option.noConfusion hres
        | some out' =>
          rw [hrec] at hres
          injection hres with h1
          subst h1
          obtain ⟨hlen, hfa⟩ := (ih st₁).2 out' hrec
          exact ⟨by simp [hlen], List.Forall₂.cons ⟨pl, rfl, rfl⟩ hfa⟩

/-- C2: `tessellation(shell, tol)` returns `None` exactly when some face's
boundary fails to project to parameter space — some boundary polyline point
failing `search_parameter` both with the previous hint and in the no-hint
fallback, as folded by `add_wire` — and, being a single `Option`, no
partial shell is ever produced; otherwise every face of the output carries
the polygon mesh `trimming_tessellation` built for it (possibly with zero
triangles). -/
theorem tessellation_failure_policy {P C S M : Type} (cops : CurveOps C P)
    (sops : SurfOps S P) (trim : S → Polyline → ℚ → M) (shell : Shl P C S)
    (tol : ℚ) :
    (tessellation cops sops trim shell tol = none ↔
      ∃ entry ∈ tessWireLists cops tol (buildVmapGo (shellVertices shell) [] 0).1
        ⟨[], (buildVmapGo (shellVertices shell) [] 0).2⟩ shell,
        faceProjOk sops entry = false) ∧
    (∀ out : Shl P (List P) M, tessellation cops sops trim shell tol = some out →
      out.length = shell.length ∧
      List.Forall₂ (fun (f : Fc P C S) (g : Fc P (List P) M) =>
        ∃ pl, g.surface = trim f.surface pl tol ∧ g.ori = f.ori) shell out) := by
  rcases hbv : buildVmapGo (shellVertices shell) [] 0 with ⟨vm, fr⟩
  have heq : tessellation cops sops trim shell tol =
      tessFaces cops sops trim tol vm ⟨[], fr⟩ shell := by
    show (match buildVmapGo (shellVertices shell) [] 0 with
      | (vmap, fresh) => tessFaces cops sops trim tol vmap ⟨[], fresh⟩ shell) = _
    rw [hbv]
  rw [heq]
  exact tessFaces_characterization ⟨[], fr⟩ shell

/-- C2 (witness): on the two-face shell `shellV` the projection of every
face succeeds and `tessellation` returns the two meshed faces. -/
theorem tessellation_failure_policy_witness :
    tessellation copsV sopsV trimV shellV 1 = some outV ∧
    (outV.length = shellV.length ∧
      List.Forall₂ (fun (f : Fc ℚ Unit Unit) (g : Fc ℚ (List ℚ) Unit) =>
        ∃ pl, g.surface = trimV f.surface pl 1 ∧ g.ori = f.ori) shellV outV) :=
  ⟨by decide,
   (tessellation_failure_policy copsV sopsV trimV shellV 1).2 outV (by decide)⟩

/-!
## C8 — cut an edge, then concat-remove the vertex

Wire-level behaviour of the modelled `cut_edge` / `remove_vertex` pair and
its identity-erased shape.
-/

/-- The identity-erased shape a wire has after the edge `eid` is cut at the
vertex `vid`: every occurrence is split into its two oriented halves joined
at `vid`. -/
def splitWireShape {P C : Type} (eid vid : Nat) (w : WireT P C) : List (Nat × Nat) :=
  w.flatMap fun x =>
    if x.id = eid then [(x.frontId, vid), (vid, x.backId)]
    else [(x.frontId, x.backId)]

/-- The identity-erased shape a solid has after the edge `eid` is cut at
the vertex `vid` in every wire. -/
def splitSolidShape {P C S : Type} (eid vid : Nat) (sol : SolidT P C S) :
    List (List (Bool × List (List (Nat × Nat)))) :=
  sol.map fun sh => sh.map fun f => (f.ori, f.bnd.map (splitWireShape eid vid))

/-- All wires of a solid, in iteration order. -/
def solidWires {P C S : Type} (sol : SolidT P C S) : List (WireT P C) :=
  sol.flatMap fun sh => sh.flatMap fun f => f.bnd

theorem flatMap_congr_mem {α β : Type _} {l : List α} {f g : α → List β}
    (h : ∀ x ∈ l, f x = g x) : l.flatMap f = l.flatMap g := by
  induction l with
  | nil => rfl
  | cons x rest ih =>
    rw [List.flatMap_cons, List.flatMap_cons, h x (List.mem_cons_self x rest),
      ih fun y hy => h y (List.mem_cons_of_mem x hy)]

theorem cutWire_eq_flatMap {P C : Type} (eid : Nat) (e1 e2 : Edg P C)
    (w : WireT P C) :
    cutWire eid e1 e2 w = w.flatMap fun x =>
      if x.id = eid then (if x.ori then [e1, e2] else [e2.inverse, e1.inverse])
      else [x] := rfl

theorem wireShape_cutWire {P C : Type} (eid : Nat) (a b vv : Vtx P)
    (id1 id2 : Nat) (c1 c2 : C) (w : WireT P C)
    (hWFw : ∀ x ∈ w, x.id = eid → x.fr = a ∧ x.bk = b) :
    wireShape (cutWire eid ⟨id1, a, vv, c1, true⟩ ⟨id2, vv, b, c2, true⟩ w) =
      splitWireShape eid vv.id w := by
  induction w with
  | nil => rfl
  | cons x rest ih =>
    have hih := ih fun y hy hid => hWFw y (List.mem_cons_of_mem x hy) hid
    have hih2 : List.map (fun e : Edg P C => (e.frontId, e.backId))
        (cutWire eid ⟨id1, a, vv, c1, true⟩ ⟨id2, vv, b, c2, true⟩ rest) =
        splitWireShape eid vv.id rest := hih
    rw [cutWire_eq_flatMap, List.flatMap_cons, ← cutWire_eq_flatMap,
      splitWireShape, List.flatMap_cons, ← splitWireShape, wireShape,
      List.map_append, hih2]
    congr 1
    by_cases hx : x.id = eid
    · obtain ⟨hfr, hbk⟩ := hWFw x (List.mem_cons_self x rest) hx
      rw [if_pos hx, if_pos hx]
      cases ho : x.ori with
      | true =>
        rw [if_pos rfl]
        show [(a.id, vv.id), (vv.id, b.id)] = [(x.frontId, vv.id), (vv.id, x.backId)]
        rw [show x.frontId = x.fr.id by simp [Edg.frontId, Edg.front, ho],
          show x.backId = x.bk.id by simp [Edg.backId, Edg.back, ho], hfr, hbk]
      | false =>
        rw [if_neg Bool.false_ne_true]
        show [(b.id, vv.id), (vv.id, a.id)] = [(x.frontId, vv.id), (vv.id, x.backId)]
        rw [show x.frontId = x.bk.id by simp [Edg.frontId, Edg.front, ho],
          show x.backId = x.fr.id by simp [Edg.backId, Edg.back, ho], hfr, hbk]
    · rw [if_neg hx, if_neg hx]
      rfl

theorem cutWire_eq_nil {P C : Type} {eid : Nat} {e1 e2 : Edg P C}
    {w : WireT P C} (h : cutWire eid e1 e2 w = []) : w = [] := by
  cases w with
  | nil => rfl
  | cons x rest =>
    rw [cutWire_eq_flatMap, List.flatMap_cons] at h
    by_cases hx : x.id = eid
    · rw [if_pos hx] at h
      cases ho : x.ori with
      | true =>
        rw [if_pos (by rw [ho])] at h
        exact absurd h (List.append_ne_nil_of_left_ne_nil (by simp) _)
      | false =>
        rw [if_neg (by rw [ho]; exact Bool.false_ne_true)] at h
        exact absurd h (List.append_ne_nil_of_left_ne_nil (by simp) _)
    · rw [if_neg hx] at h
      exact absurd h (List.append_ne_nil_of_left_ne_nil (by simp) _)

theorem findPairInWire_cons2 {P C : Type} (vid : Nat) (x y : Edg P C)
    (rest : WireT P C) :
    findPairInWire vid (x :: y :: rest) =
      (if x.backId = vid ∧ y.frontId = vid then some (x, y)
       else findPairInWire vid (y :: rest)) := rfl

theorem findPairInWire_cutWire {P C : Type} (eid : Nat) (a b vv : Vtx P)
    (id1 id2 : Nat) (c1 c2 : C) (w : WireT P C)
    (hw : ∀ x ∈ w, x.fr.id ≠ vv.id ∧ x.bk.id ≠ vv.id) :
    (findPairInWire vv.id
        (cutWire eid ⟨id1, a, vv, c1, true⟩ ⟨id2, vv, b, c2, true⟩ w) = none ∧
      ∀ x ∈ w, x.id ≠ eid) ∨
    (∃ x y, findPairInWire vv.id
        (cutWire eid ⟨id1, a, vv, c1, true⟩ ⟨id2, vv, b, c2, true⟩ w) = some (x, y) ∧
      ((x.ori = true ∧ x = (⟨id1, a, vv, c1, true⟩ : Edg P C) ∧
        y = (⟨id2, vv, b, c2, true⟩ : Edg P C)) ∨
       (x.ori = false ∧ x = (⟨id2, vv, b, c2, true⟩ : Edg P C).inverse ∧
        y = (⟨id1, a, vv, c1, true⟩ : Edg P C).inverse))) := by
  induction w with
  | nil =>
    left
    exact ⟨rfl, fun x hx => absurd hx (List.not_mem_nil x)⟩
  | cons x rest ih =>
    have hwrest : ∀ y ∈ rest, y.fr.id ≠ vv.id ∧ y.bk.id ≠ vv.id :=
      fun y hy => hw y (List.mem_cons_of_mem x hy)
    by_cases hx : x.id = eid
    · right
      cases ho : x.ori with
      | true =>
        have hcut : cutWire eid (⟨id1, a, vv, c1, true⟩ : Edg P C) ⟨id2, vv, b, c2, true⟩ (x :: rest) =
            (⟨id1, a, vv, c1, true⟩ : Edg P C) :: (⟨id2, vv, b, c2, true⟩ : Edg P C) ::
              cutWire eid ⟨id1, a, vv, c1, true⟩ ⟨id2, vv, b, c2, true⟩ rest := by
          rw [cutWire_eq_flatMap, List.flatMap_cons, if_pos hx, if_pos (by rw [ho]),
            ← cutWire_eq_flatMap]
          rfl
        rw [hcut, findPairInWire_cons2, if_pos ⟨rfl, rfl⟩]
        exact ⟨_, _, rfl, Or.inl ⟨rfl, rfl, rfl⟩⟩
      | false =>
        have hcut : cutWire eid (⟨id1, a, vv, c1, true⟩ : Edg P C) ⟨id2, vv, b, c2, true⟩ (x :: rest) =
            (⟨id2, vv, b, c2, true⟩ : Edg P C).inverse :: (⟨id1, a, vv, c1, true⟩ : Edg P C).inverse ::
              cutWire eid ⟨id1, a, vv, c1, true⟩ ⟨id2, vv, b, c2, true⟩ rest := by
          rw [cutWire_eq_flatMap, List.flatMap_cons, if_pos hx,
            if_neg (by rw [ho]; exact Bool.false_ne_true), ← cutWire_eq_flatMap]
          rfl
        rw [hcut, findPairInWire_cons2, if_pos ⟨rfl, rfl⟩]
        exact ⟨_, _, rfl, Or.inr ⟨rfl, rfl, rfl⟩⟩
    · have hcut : cutWire eid (⟨id1, a, vv, c1, true⟩ : Edg P C) ⟨id2, vv, b, c2, true⟩ (x :: rest) =
          x :: cutWire eid ⟨id1, a, vv, c1, true⟩ ⟨id2, vv, b, c2, true⟩ rest := by
        rw [cutWire_eq_flatMap, List.flatMap_cons, if_neg hx, ← cutWire_eq_flatMap]
        rfl
      rw [hcut]
      have hxback : x.backId ≠ vv.id := by
        rw [Edg.backId, Edg.back]
        cases x.ori with
        | true => exact (hw x (List.mem_cons_self x rest)).2
        | false => exact (hw x (List.mem_cons_self x rest)).1
      cases hcr : cutWire eid (⟨id1, a, vv, c1, true⟩ : Edg P C) ⟨id2, vv, b, c2, true⟩ rest with
      | nil =>
        left
        have hrest : rest = [] := cutWire_eq_nil hcr
        subst hrest
        refine ⟨rfl, fun y hy => ?_⟩
        rcases List.mem_cons.mp hy with h1 | h1
        · rw [h1]; exact hx
        · exact absurd h1 (List.not_mem_nil y)
      | cons z l =>
        rw [findPairInWire_cons2, if_neg (fun hcon => hxback hcon.1), ← hcr]
        rcases ih hwrest with ⟨hnone, hnoid⟩ | ⟨p, q, hsome, hgood⟩
        · left
          refine ⟨hnone, fun y hy => ?_⟩
          rcases List.mem_cons.mp hy with h1 | h1
          · rw [h1]; exact hx
          · exact hnoid y h1
        · right
          exact ⟨p, q, hsome, hgood⟩

theorem fuseInWire_cons2 {P C : Type} (vid : Nat) (ef x y : Edg P C)
    (rest : WireT P C) :
    fuseInWire vid ef (x :: y :: rest) =
      (if x.backId = vid ∧ y.frontId = vid then
        (if x.ori then ef else ef.inverse) :: fuseInWire vid ef rest
      else x :: fuseInWire vid ef (y :: rest)) := rfl

theorem fuseInWire_cutWire {P C : Type} (eid : Nat) (a b vv : Vtx P)
    (id1 id2 : Nat) (c1 c2 : C) (ef : Edg P C) (w : WireT P C)
    (hw : ∀ x ∈ w, x.fr.id ≠ vv.id ∧ x.bk.id ≠ vv.id) :
    fuseInWire vv.id ef
        (cutWire eid ⟨id1, a, vv, c1, true⟩ ⟨id2, vv, b, c2, true⟩ w) =
      w.map fun x => if x.id = eid then (if x.ori then ef else ef.inverse) else x := by
  induction w with
  | nil => rfl
  | cons x rest ih =>
    have hwrest : ∀ y ∈ rest, y.fr.id ≠ vv.id ∧ y.bk.id ≠ vv.id :=
      fun y hy => hw y (List.mem_cons_of_mem x hy)
    have hih := ih hwrest
    by_cases hx : x.id = eid
    · cases ho : x.ori with
      | true =>
        have hcut : cutWire eid (⟨id1, a, vv, c1, true⟩ : Edg P C) ⟨id2, vv, b, c2, true⟩ (x :: rest) =
            (⟨id1, a, vv, c1, true⟩ : Edg P C) :: (⟨id2, vv, b, c2, true⟩ : Edg P C) ::
              cutWire eid ⟨id1, a, vv, c1, true⟩ ⟨id2, vv, b, c2, true⟩ rest := by
          rw [cutWire_eq_flatMap, List.flatMap_cons, if_pos hx, if_pos (by rw [ho]),
            ← cutWire_eq_flatMap]
          rfl
        rw [hcut, fuseInWire_cons2, if_pos ⟨rfl, rfl⟩, hih, List.map_cons,
          if_pos hx, if_pos ho]
        rfl
      | false =>
        have hcut : cutWire eid (⟨id1, a, vv, c1, true⟩ : Edg P C) ⟨id2, vv, b, c2, true⟩ (x :: rest) =
            (⟨id2, vv, b, c2, true⟩ : Edg P C).inverse :: (⟨id1, a, vv, c1, true⟩ : Edg P C).inverse ::
              cutWire eid ⟨id1, a, vv, c1, true⟩ ⟨id2, vv, b, c2, true⟩ rest := by
          rw [cutWire_eq_flatMap, List.flatMap_cons, if_pos hx,
            if_neg (by rw [ho]; exact Bool.false_ne_true), ← cutWire_eq_flatMap]
          rfl
        have hno : ¬(x.ori = true) := by rw [ho]; exact Bool.false_ne_true
        rw [hcut, fuseInWire_cons2, if_pos ⟨rfl, rfl⟩, hih, List.map_cons,
          if_pos hx, if_neg hno]
        rfl
    · have hcut : cutWire eid (⟨id1, a, vv, c1, true⟩ : Edg P C) ⟨id2, vv, b, c2, true⟩ (x :: rest) =
          x :: cutWire eid ⟨id1, a, vv, c1, true⟩ ⟨id2, vv, b, c2, true⟩ rest := by
        rw [cutWire_eq_flatMap, List.flatMap_cons, if_neg hx, ← cutWire_eq_flatMap]
        rfl
      have hxback : x.backId ≠ vv.id := by
        rw [Edg.backId, Edg.back]
        cases x.ori with
        | true => exact (hw x (List.mem_cons_self x rest)).2
        | false => exact (hw x (List.mem_cons_self x rest)).1
      rw [hcut, List.map_cons, if_neg hx]
      cases hcr : cutWire eid (⟨id1, a, vv, c1, true⟩ : Edg P C) ⟨id2, vv, b, c2, true⟩ rest with
      | nil =>
        have hrest : rest = [] := cutWire_eq_nil hcr
        subst hrest
        rfl
      | cons z l =>
        rw [fuseInWire_cons2, if_neg (fun hcon => hxback hcon.1), ← hcr, hih]

/-- The incidence projection used by `incidentIds`. -/
def incPick {P C : Type} (vid : Nat) (x : Edg P C) : Option Nat :=
  if x.fr.id = vid ∨ x.bk.id = vid then some x.id else none

theorem filterMap_incPick_cutWire {P C : Type} (eid : Nat) (a b vv : Vtx P)
    (id1 id2 : Nat) (c1 c2 : C) (w : WireT P C)
    (hw : ∀ x ∈ w, x.fr.id ≠ vv.id ∧ x.bk.id ≠ vv.id) :
    (cutWire eid ⟨id1, a, vv, c1, true⟩ ⟨id2, vv, b, c2, true⟩ w).filterMap
        (incPick vv.id) =
      w.flatMap fun x =>
        if x.id = eid then (if x.ori then [id1, id2] else [id2, id1]) else [] := by
  induction w with
  | nil => rfl
  | cons x rest ih =>
    have hih := ih fun y hy => hw y (List.mem_cons_of_mem x hy)
    rw [cutWire_eq_flatMap, List.flatMap_cons, ← cutWire_eq_flatMap,
      List.filterMap_append, hih, List.flatMap_cons]
    congr 1
    by_cases hx : x.id = eid
    · rw [if_pos hx, if_pos hx]
      cases ho : x.ori with
      | true =>
        rw [if_pos rfl, if_pos rfl]
        show List.filterMap (incPick vv.id)
          [(⟨id1, a, vv, c1, true⟩ : Edg P C), ⟨id2, vv, b, c2, true⟩] = [id1, id2]
        rw [List.filterMap_cons, List.filterMap_cons]
        rw [show incPick vv.id (⟨id1, a, vv, c1, true⟩ : Edg P C) = some id1 from
          if_pos (Or.inr rfl)]
        rw [show incPick vv.id (⟨id2, vv, b, c2, true⟩ : Edg P C) = some id2 from
          if_pos (Or.inl rfl)]
        rfl
      | false =>
        rw [if_neg Bool.false_ne_true, if_neg Bool.false_ne_true]
        show List.filterMap (incPick vv.id)
          [(⟨id2, vv, b, c2, true⟩ : Edg P C).inverse,
           (⟨id1, a, vv, c1, true⟩ : Edg P C).inverse] = [id2, id1]
        rw [List.filterMap_cons, List.filterMap_cons]
        rw [show incPick vv.id (⟨id2, vv, b, c2, true⟩ : Edg P C).inverse = some id2 from
          if_pos (Or.inl rfl)]
        rw [show incPick vv.id (⟨id1, a, vv, c1, true⟩ : Edg P C).inverse = some id1 from
          if_pos (Or.inr rfl)]
        rfl
    · rw [if_neg hx, if_neg hx]
      have hnone : incPick vv.id x = none :=
        if_neg (fun hcon => hcon.elim
          (fun h1 => (hw x (List.mem_cons_self x rest)).1 h1)
          (fun h2 => (hw x (List.mem_cons_self x rest)).2 h2))
      rw [List.filterMap_cons, hnone]
      rfl

/-!
## C8: solid-level behaviour of cut-then-concat

Solid-level flattening of the wire transformations, evaluation of the two
modelled operations, and the round-trip theorem.
-/

theorem solidEdges_eq_flatMap_wires {P C S : Type} (sol : SolidT P C S) :
    solidEdges sol = (solidWires sol).flatMap (fun w => w) := by
  simp only [solidEdges, solidWires, List.flatMap_assoc]

theorem solidWires_mapWires {P C S : Type} (g : WireT P C → WireT P C)
    (sol : SolidT P C S) :
    solidWires (mapWires g sol) = (solidWires sol).map g := by
  simp only [solidWires, mapWires, List.flatMap_map, List.map_flatMap,
    List.map_map]

theorem solidEdges_mapWires {P C S : Type} (g : WireT P C → WireT P C)
    (sol : SolidT P C S) :
    solidEdges (mapWires g sol) = (solidWires sol).flatMap g := by
  simp only [solidEdges, solidWires, mapWires, List.flatMap_map,
    List.flatMap_assoc]

theorem mapWires_mapWires {P C S : Type} (g h : WireT P C → WireT P C)
    (sol : SolidT P C S) :
    mapWires g (mapWires h sol) = mapWires (fun w => g (h w)) sol := by
  unfold mapWires
  rw [List.map_map]
  refine List.map_congr_left fun sh _ => ?_
  show ((sh.map fun f => ({ f with bnd := f.bnd.map h } : Fc P C S)).map
      fun f => ({ f with bnd := f.bnd.map g } : Fc P C S)) =
    sh.map fun f => ({ f with bnd := f.bnd.map fun w => g (h w) } : Fc P C S)
  rw [List.map_map]
  refine List.map_congr_left fun f _ => ?_
  show ({ bnd := (f.bnd.map h).map g, surface := f.surface, ori := f.ori } : Fc P C S) =
    { bnd := f.bnd.map fun w => g (h w), surface := f.surface, ori := f.ori }
  rw [List.map_map]
  rfl

theorem mem_solidEdges_of_mem_wire {P C S : Type} {sol : SolidT P C S}
    {w : WireT P C} {x : Edg P C} (hw : w ∈ solidWires sol) (hx : x ∈ w) :
    x ∈ solidEdges sol := by
  rw [solidEdges_eq_flatMap_wires]
  exact List.mem_flatMap.mpr ⟨w, hw, hx⟩

theorem mapWires_congr {P C S : Type} {g k : WireT P C → WireT P C}
    {sol : SolidT P C S} (h : ∀ w ∈ solidWires sol, g w = k w) :
    mapWires g sol = mapWires k sol := by
  unfold mapWires
  refine List.map_congr_left fun sh hsh => ?_
  refine List.map_congr_left fun f hf => ?_
  have hb : f.bnd.map g = f.bnd.map k :=
    List.map_congr_left fun w hw => h w
      (List.mem_flatMap.mpr ⟨sh, hsh, List.mem_flatMap.mpr ⟨f, hf, hw⟩⟩)
  rw [hb]

theorem solidShape_mapWires {P C S : Type} {g : WireT P C → WireT P C}
    {k : WireT P C → List (Nat × Nat)} {sol : SolidT P C S}
    (h : ∀ w ∈ solidWires sol, wireShape (g w) = k w) :
    solidShape (mapWires g sol) =
      sol.map fun sh => sh.map fun f => (f.ori, f.bnd.map k) := by
  unfold solidShape mapWires
  rw [List.map_map]
  refine List.map_congr_left fun sh hsh => ?_
  show ((sh.map fun f => ({ f with bnd := f.bnd.map g } : Fc P C S)).map
      fun f => (f.ori, f.bnd.map wireShape)) = sh.map fun f => (f.ori, f.bnd.map k)
  rw [List.map_map]
  refine List.map_congr_left fun f hf => ?_
  show (f.ori, (f.bnd.map g).map wireShape) = (f.ori, f.bnd.map k)
  rw [List.map_map]
  refine congrArg (Prod.mk f.ori) ?_
  refine List.map_congr_left fun w hw => ?_
  exact h w (List.mem_flatMap.mpr ⟨sh, hsh, List.mem_flatMap.mpr ⟨f, hf, hw⟩⟩)

theorem numFaces_mapWires {P C S : Type} (g : WireT P C → WireT P C)
    (sol : SolidT P C S) : numFaces (mapWires g sol) = numFaces sol := by
  unfold numFaces mapWires
  rw [List.map_map]
  refine congrArg List.sum ?_
  refine List.map_congr_left fun sh _ => ?_
  show (sh.map fun f => ({ f with bnd := f.bnd.map g } : Fc P C S)).length = sh.length
  simp

/-- The two shapes the adjacent pair found at the cut vertex can take:
the forward halves, or both halves inverted (when the wire traverses the
original edge backwards). -/
def GoodPair {P C : Type} (id1 id2 : Nat) (a b vv : Vtx P) (c1 c2 : C)
    (x y : Edg P C) : Prop :=
  (x.ori = true ∧ x = (⟨id1, a, vv, c1, true⟩ : Edg P C) ∧
    y = (⟨id2, vv, b, c2, true⟩ : Edg P C)) ∨
  (x.ori = false ∧ x = (⟨id2, vv, b, c2, true⟩ : Edg P C).inverse ∧
    y = (⟨id1, a, vv, c1, true⟩ : Edg P C).inverse)

/-- The wire fold performed by `findPairAtVertex`. -/
def pairFold {P C : Type} (vid : Nat) (ws : List (WireT P C)) :
    Option (Edg P C × Edg P C) :=
  ws.foldr
    (fun w acc => match findPairInWire vid w with
      | some p => some p
      | none => acc)
    none

theorem findPairAtVertex_eq_pairFold {P C S : Type} (vid : Nat)
    (sol : SolidT P C S) :
    findPairAtVertex vid sol = pairFold vid (solidWires sol) := rfl

theorem pairFold_cut {P C : Type} (eid : Nat) (a b vv : Vtx P)
    (id1 id2 : Nat) (c1 c2 : C) (ws : List (WireT P C))
    (hw : ∀ w ∈ ws, ∀ x ∈ w, x.fr.id ≠ vv.id ∧ x.bk.id ≠ vv.id) :
    (pairFold vv.id
        (ws.map (cutWire eid ⟨id1, a, vv, c1, true⟩ ⟨id2, vv, b, c2, true⟩)) = none ∧
      ∀ w ∈ ws, ∀ x ∈ w, x.id ≠ eid) ∨
    (∃ x y, pairFold vv.id
        (ws.map (cutWire eid ⟨id1, a, vv, c1, true⟩ ⟨id2, vv, b, c2, true⟩)) =
          some (x, y) ∧
      GoodPair id1 id2 a b vv c1 c2 x y) := by
  induction ws with
  | nil =>
    left
    exact ⟨rfl, fun w hw' => absurd hw' (List.not_mem_nil w)⟩
  | cons w ws ih =>
    have hwrest : ∀ w' ∈ ws, ∀ x ∈ w', x.fr.id ≠ vv.id ∧ x.bk.id ≠ vv.id :=
      fun w' hw' => hw w' (List.mem_cons_of_mem w hw')
    rcases findPairInWire_cutWire eid a b vv id1 id2 c1 c2 w
        (hw w (List.mem_cons_self w ws)) with ⟨hn, hno⟩ | ⟨x, y, hs, hg⟩
    · have step : pairFold vv.id
          ((w :: ws).map (cutWire eid ⟨id1, a, vv, c1, true⟩ ⟨id2, vv, b, c2, true⟩)) =
          pairFold vv.id
            (ws.map (cutWire eid ⟨id1, a, vv, c1, true⟩ ⟨id2, vv, b, c2, true⟩)) := by
        show (match findPairInWire vv.id
            (cutWire eid ⟨id1, a, vv, c1, true⟩ ⟨id2, vv, b, c2, true⟩ w) with
          | some p => some p
          | none => pairFold vv.id
              (ws.map (cutWire eid ⟨id1, a, vv, c1, true⟩ ⟨id2, vv, b, c2, true⟩))) = _
        rw [hn]
      rcases ih hwrest with ⟨h1, h2⟩ | ⟨x, y, hs, hg⟩
      · left
        refine ⟨step.trans h1, fun w' hw' => ?_⟩
        rcases List.mem_cons.mp hw' with h3 | h3
        · exact h3 ▸ hno
        · exact h2 w' h3
      · right
        exact ⟨x, y, step.trans hs, hg⟩
    · right
      refine ⟨x, y, ?_, hg⟩
      show (match findPairInWire vv.id
          (cutWire eid ⟨id1, a, vv, c1, true⟩ ⟨id2, vv, b, c2, true⟩ w) with
        | some p => some p
        | none => pairFold vv.id
            (ws.map (cutWire eid ⟨id1, a, vv, c1, true⟩ ⟨id2, vv, b, c2, true⟩))) = _
      rw [hs]

theorem cutEdge_eval {P C S : Type} (cutC : C → Option (C × C)) (eid : Nat)
    (v : Vtx P) (f1 : Nat) (sol : SolidT P C S) (e : Edg P C) (c1 c2 : C)
    (hfind : findEdge eid sol = some e) (hcut : cutC e.curve = some (c1, c2)) :
    Solid.cutEdge cutC eid v f1 sol =
      (mapWires (cutWire eid ⟨f1, e.fr, v, c1, true⟩ ⟨f1 + 1, v, e.bk, c2, true⟩) sol,
        true) := by
  show (match findEdge eid sol with
    | none => (sol, false)
    | some e' =>
      match cutC e'.curve with
      | none => (sol, false)
      | some (d1, d2) =>
        (mapWires (cutWire eid ⟨f1, e'.fr, v, d1, true⟩ ⟨f1 + 1, v, e'.bk, d2, true⟩) sol,
          true)) = _
  rw [hfind]
  show (match cutC e.curve with
    | none => (sol, false)
    | some (d1, d2) =>
      (mapWires (cutWire eid ⟨f1, e.fr, v, d1, true⟩ ⟨f1 + 1, v, e.bk, d2, true⟩) sol,
        true)) = _
  rw [hcut]

theorem removeVertex_eval {P C S : Type} (invC : C → C)
    (concatC : C → C → Option C) (vid : Nat) (f3 : Nat) (sol : SolidT P C S)
    (x y : Edg P C) (cc : C)
    (hdeg : (incidentIds vid sol).dedup.length = 2)
    (hfp : findPairAtVertex vid sol = some (x, y))
    (hcc : concatC (orientedC invC (if x.ori then x else y.inverse))
        (orientedC invC (if x.ori then y else x.inverse)) = some cc) :
    Solid.removeVertexByConcatEdges invC concatC vid f3 sol =
      (mapWires (fuseInWire vid
          ⟨f3, (if x.ori then x else y.inverse).fr,
            (if x.ori then y else x.inverse).bk, cc, true⟩) sol,
        true) := by
  show (if (incidentIds vid sol).dedup.length = 2 then
      match findPairAtVertex vid sol with
      | none => (sol, false)
      | some (p, q) =>
        match concatC (orientedC invC (if p.ori then p else q.inverse))
            (orientedC invC (if p.ori then q else p.inverse)) with
        | none => (sol, false)
        | some cc' =>
          (mapWires (fuseInWire vid
              ⟨f3, (if p.ori then p else q.inverse).fr,
                (if p.ori then q else p.inverse).bk, cc', true⟩) sol,
            true)
    else (sol, false)) = _
  rw [if_pos hdeg, hfp]
  show (match concatC (orientedC invC (if x.ori then x else y.inverse))
      (orientedC invC (if x.ori then y else x.inverse)) with
    | none => (sol, false)
    | some cc' =>
      (mapWires (fuseInWire vid
          ⟨f3, (if x.ori then x else y.inverse).fr,
            (if x.ori then y else x.inverse).bk, cc', true⟩) sol,
        true)) = _
  rw [hcc]

theorem list_toFinset_map (l : List Nat) (g : Nat → Nat) :
    (l.map g).toFinset = l.toFinset.image g := by
  apply Finset.ext
  intro n
  simp

theorem dedup_length_map_injOn {l : List Nat} {g : Nat → Nat}
    (h : ∀ x ∈ l, ∀ y ∈ l, g x = g y → x = y) :
    (l.map g).dedup.length = l.dedup.length := by
  rw [← List.card_toFinset, ← List.card_toFinset, list_toFinset_map]
  refine Finset.card_image_of_injOn ?_
  intro x hx y hy hxy
  exact h x (by simpa using hx) y (by simpa using hy) hxy

theorem dedup_length_two {l : List Nat} {a b : Nat} (hab : a ≠ b)
    (hsub : ∀ x ∈ l, x = a ∨ x = b) (ha : a ∈ l) (hb : b ∈ l) :
    l.dedup.length = 2 := by
  rw [← List.card_toFinset]
  have hfin : l.toFinset = {a, b} := by
    apply Finset.ext
    intro n
    simp only [List.mem_toFinset, Finset.mem_insert, Finset.mem_singleton]
    constructor
    · exact hsub n
    · rintro (rfl | rfl)
      · exact ha
      · exact hb
  rw [hfin, Finset.card_pair hab]

theorem incidentIds_eq_filterMap {P C S : Type} (vid : Nat)
    (sol : SolidT P C S) :
    incidentIds vid sol = (solidEdges sol).filterMap (incPick vid) := rfl

theorem incidentIds_cut {P C S : Type} (eid : Nat) (a b vv : Vtx P)
    (id1 id2 : Nat) (c1 c2 : C) (sol : SolidT P C S)
    (hv : ∀ x ∈ solidEdges sol, x.fr.id ≠ vv.id ∧ x.bk.id ≠ vv.id) :
    incidentIds vv.id
        (mapWires (cutWire eid ⟨id1, a, vv, c1, true⟩ ⟨id2, vv, b, c2, true⟩) sol) =
      (solidEdges sol).flatMap fun x =>
        if x.id = eid then (if x.ori then [id1, id2] else [id2, id1]) else [] := by
  rw [incidentIds_eq_filterMap, solidEdges_mapWires, List.filterMap_flatMap,
    solidEdges_eq_flatMap_wires, List.flatMap_assoc]
  refine flatMap_congr_mem fun w hw => ?_
  exact filterMap_incPick_cutWire eid a b vv id1 id2 c1 c2 w
    (fun x hx => hv x (mem_solidEdges_of_mem_wire hw hx))

theorem vertexIdList_mapWires_map {P C S : Type} (s : Edg P C → Edg P C)
    (sol : SolidT P C S)
    (h : ∀ x ∈ solidEdges sol, (s x).fr.id = x.fr.id ∧ (s x).bk.id = x.bk.id) :
    vertexIdList (mapWires (fun w => w.map s) sol) = vertexIdList sol := by
  unfold vertexIdList
  rw [solidEdges_mapWires, List.flatMap_assoc, solidEdges_eq_flatMap_wires,
    List.flatMap_assoc]
  refine flatMap_congr_mem fun w hw => ?_
  show ((w.map s).flatMap fun e => [e.fr.id, e.bk.id]) =
    w.flatMap fun e => [e.fr.id, e.bk.id]
  rw [List.flatMap_map]
  refine flatMap_congr_mem fun x hx => ?_
  obtain ⟨h1, h2⟩ := h x (mem_solidEdges_of_mem_wire hw hx)
  show [(s x).fr.id, (s x).bk.id] = [x.fr.id, x.bk.id]
  rw [h1, h2]

theorem edgeIdList_mapWires_map {P C S : Type} (s : Edg P C → Edg P C)
    (g0 : Nat → Nat) (sol : SolidT P C S)
    (h : ∀ x ∈ solidEdges sol, (s x).id = g0 x.id) :
    edgeIdList (mapWires (fun w => w.map s) sol) = (edgeIdList sol).map g0 := by
  unfold edgeIdList
  rw [solidEdges_mapWires, solidEdges_eq_flatMap_wires]
  simp only [List.map_flatMap]
  refine flatMap_congr_mem fun w hw => ?_
  show (w.map s).map Edg.id = (w.map Edg.id).map g0
  rw [List.map_map, List.map_map]
  refine List.map_congr_left fun x hx => ?_
  exact h x (mem_solidEdges_of_mem_wire hw hx)

theorem wireShape_map_subst {P C : Type} (eid : Nat) (aa bb : Vtx P)
    (f3 : Nat) (cc : C) (w : WireT P C)
    (hWFw : ∀ x ∈ w, x.id = eid → x.fr = aa ∧ x.bk = bb) :
    wireShape (w.map fun x => if x.id = eid then
        (if x.ori then (⟨f3, aa, bb, cc, true⟩ : Edg P C)
         else (⟨f3, aa, bb, cc, true⟩ : Edg P C).inverse)
      else x) = wireShape w := by
  unfold wireShape
  rw [List.map_map]
  refine List.map_congr_left fun x hx => ?_
  show ((if x.id = eid then
        (if x.ori then (⟨f3, aa, bb, cc, true⟩ : Edg P C)
         else (⟨f3, aa, bb, cc, true⟩ : Edg P C).inverse)
      else x).frontId,
    (if x.id = eid then
        (if x.ori then (⟨f3, aa, bb, cc, true⟩ : Edg P C)
         else (⟨f3, aa, bb, cc, true⟩ : Edg P C).inverse)
      else x).backId) = (x.frontId, x.backId)
  by_cases hid : x.id = eid
  · obtain ⟨hfr, hbk⟩ := hWFw x hx hid
    rw [if_pos hid]
    cases ho : x.ori with
    | true =>
      rw [if_pos rfl]
      show (aa.id, bb.id) = (x.frontId, x.backId)
      rw [show x.frontId = x.fr.id by simp [Edg.frontId, Edg.front, ho],
        show x.backId = x.bk.id by simp [Edg.backId, Edg.back, ho], hfr, hbk]
    | false =>
      rw [if_neg Bool.false_ne_true]
      show (bb.id, aa.id) = (x.frontId, x.backId)
      rw [show x.frontId = x.bk.id by simp [Edg.frontId, Edg.front, ho],
        show x.backId = x.fr.id by simp [Edg.backId, Edg.back, ho], hfr, hbk]
  · rw [if_neg hid]

/-- The C8 round-trip contract: after `cut_edge` at a fresh vertex and
`remove_vertex_by_concat_edges` at that vertex, both operations report
success, the cut solid carries the split shape in every wire, and the final
solid has the original identity-erased shape, endpoint-identity list,
distinct-edge count and face count. -/
def CutConcatRoundTrip {P C S : Type} (cutC : C → Option (C × C))
    (invC : C → C) (concatC : C → C → Option C) (eid : Nat) (v : Vtx P)
    (f1 f3 : Nat) (sol : SolidT P C S) : Prop :=
  (Solid.cutEdge cutC eid v f1 sol).2 = true ∧
  (Solid.removeVertexByConcatEdges invC concatC v.id f3
      (Solid.cutEdge cutC eid v f1 sol).1).2 = true ∧
  solidShape (Solid.cutEdge cutC eid v f1 sol).1 = splitSolidShape eid v.id sol ∧
  solidShape (Solid.removeVertexByConcatEdges invC concatC v.id f3
      (Solid.cutEdge cutC eid v f1 sol).1).1 = solidShape sol ∧
  vertexIdList (Solid.removeVertexByConcatEdges invC concatC v.id f3
      (Solid.cutEdge cutC eid v f1 sol).1).1 = vertexIdList sol ∧
  (edgeIdList (Solid.removeVertexByConcatEdges invC concatC v.id f3
      (Solid.cutEdge cutC eid v f1 sol).1).1).dedup.length =
    (edgeIdList sol).dedup.length ∧
  numFaces (Solid.cutEdge cutC eid v f1 sol).1 = numFaces sol ∧
  numFaces (Solid.removeVertexByConcatEdges invC concatC v.id f3
      (Solid.cutEdge cutC eid v f1 sol).1).1 = numFaces sol

/-- C8: cutting an edge of a solid at a fresh vertex with `Solid::cut_edge`
and then removing that vertex with `Solid::remove_vertex_by_concat_edges`
succeeds (both return `true`), applies the cut to every wire of every
boundary shell containing the edge (the cut solid's shape is the split
shape), and yields a solid graph-isomorphic to the original up to entity
identities: identical identity-erased shape, identical endpoint-vertex
identity list, the same number of distinct edges, and the same number of
faces. -/
theorem cut_then_concat_roundtrip {P C S : Type} (cutC : C → Option (C × C))
    (invC : C → C) (concatC : C → C → Option C) (eid : Nat) (v : Vtx P)
    (f1 f3 : Nat) (sol : SolidT P C S) (e : Edg P C) (c1 c2 cc : C)
    (hfind : findEdge eid sol = some e)
    (hcut : cutC e.curve = some (c1, c2))
    (hcc : concatC c1 c2 = some cc)
    (hv : ∀ x ∈ solidEdges sol, x.fr.id ≠ v.id ∧ x.bk.id ≠ v.id)
    (hWF : ∀ x ∈ solidEdges sol, x.id = eid → x.fr = e.fr ∧ x.bk = e.bk)
    (hf3 : f3 ∉ edgeIdList sol) :
    CutConcatRoundTrip cutC invC concatC eid v f1 f3 sol := by
  have hfind' : (solidEdges sol).find? (fun z => decide (z.id = eid)) = some e :=
    hfind
  have hmem : e ∈ solidEdges sol := List.mem_of_find?_eq_some hfind'
  have hp := @List.find?_some (Edg P C) (fun z => decide (z.id = eid)) e _ hfind'
  have heid : e.id = eid := of_decide_eq_true hp
  have h1 : Solid.cutEdge cutC eid v f1 sol =
      (mapWires (cutWire eid ⟨f1, e.fr, v, c1, true⟩ ⟨f1 + 1, v, e.bk, c2, true⟩) sol,
        true) :=
    cutEdge_eval cutC eid v f1 sol e c1 c2 hfind hcut
  have hdeg : (incidentIds v.id
      (mapWires (cutWire eid ⟨f1, e.fr, v, c1, true⟩ ⟨f1 + 1, v, e.bk, c2, true⟩)
        sol)).dedup.length = 2 := by
    rw [incidentIds_cut eid e.fr e.bk v f1 (f1 + 1) c1 c2 sol hv]
    have hsub : ∀ n ∈ (solidEdges sol).flatMap fun x =>
        (if x.id = eid then (if x.ori then [f1, f1 + 1] else [f1 + 1, f1]) else []),
        n = f1 ∨ n = f1 + 1 := by
      intro n hn
      rcases List.mem_flatMap.mp hn with ⟨x, hx, hnx⟩
      by_cases hid : x.id = eid
      · rw [if_pos hid] at hnx
        cases hox : x.ori with
        | true =>
          rw [if_pos hox] at hnx
          simpa using hnx
        | false =>
          rw [if_neg (by rw [hox]; exact Bool.false_ne_true)] at hnx
          simp at hnx
          tauto
      · rw [if_neg hid] at hnx
        exact absurd hnx (List.not_mem_nil n)
    have hm1 : f1 ∈ (solidEdges sol).flatMap fun x =>
        (if x.id = eid then (if x.ori then [f1, f1 + 1] else [f1 + 1, f1]) else []) :=
      List.mem_flatMap.mpr ⟨e, hmem, by rw [if_pos heid]; cases e.ori <;> simp⟩
    have hm2 : f1 + 1 ∈ (solidEdges sol).flatMap fun x =>
        (if x.id = eid then (if x.ori then [f1, f1 + 1] else [f1 + 1, f1]) else []) :=
      List.mem_flatMap.mpr ⟨e, hmem, by rw [if_pos heid]; cases e.ori <;> simp⟩
    exact dedup_length_two (show f1 ≠ f1 + 1 by omega) hsub hm1 hm2
  have hwires : ∀ w ∈ solidWires sol, ∀ x ∈ w, x.fr.id ≠ v.id ∧ x.bk.id ≠ v.id :=
    fun w hw x hx => hv x (mem_solidEdges_of_mem_wire hw hx)
  have hWFwire : ∀ w ∈ solidWires sol, ∀ x ∈ w, x.id = eid →
      x.fr = e.fr ∧ x.bk = e.bk :=
    fun w hw x hx => hWF x (mem_solidEdges_of_mem_wire hw hx)
  have hmemw : ∃ w, w ∈ solidWires sol ∧ e ∈ w := by
    have hm := hmem
    rw [solidEdges_eq_flatMap_wires] at hm
    rcases List.mem_flatMap.mp hm with ⟨w, hw, he⟩
    exact ⟨w, hw, he⟩
  obtain ⟨w0, hw0, hew0⟩ := hmemw
  rcases pairFold_cut eid e.fr e.bk v f1 (f1 + 1) c1 c2 (solidWires sol) hwires with
    ⟨_, hno⟩ | ⟨x, y, hs, hg⟩
  · exact absurd heid (hno w0 hw0 e hew0)
  · have hfp : findPairAtVertex v.id
        (mapWires (cutWire eid ⟨f1, e.fr, v, c1, true⟩ ⟨f1 + 1, v, e.bk, c2, true⟩)
          sol) = some (x, y) := by
      rw [findPairAtVertex_eq_pairFold, solidWires_mapWires]
      exact hs
    have hx' : (if x.ori then x else y.inverse) = (⟨f1, e.fr, v, c1, true⟩ : Edg P C) := by
      rcases hg with ⟨ho, hxe, hye⟩ | ⟨ho, hxe, hye⟩
      · rw [if_pos ho, hxe]
      · rw [if_neg (by rw [ho]; exact Bool.false_ne_true), hye, Edg.inverse_inverse]
    have hy' : (if x.ori then y else x.inverse) =
        (⟨f1 + 1, v, e.bk, c2, true⟩ : Edg P C) := by
      rcases hg with ⟨ho, hxe, hye⟩ | ⟨ho, hxe, hye⟩
      · rw [if_pos ho, hye]
      · rw [if_neg (by rw [ho]; exact Bool.false_ne_true), hxe, Edg.inverse_inverse]
    have hcc2 : concatC (orientedC invC (if x.ori then x else y.inverse))
        (orientedC invC (if x.ori then y else x.inverse)) = some cc := by
      rw [hx', hy']
      exact hcc
    have hrm : Solid.removeVertexByConcatEdges invC concatC v.id f3
        (mapWires (cutWire eid ⟨f1, e.fr, v, c1, true⟩ ⟨f1 + 1, v, e.bk, c2, true⟩)
          sol) =
        (mapWires (fuseInWire v.id ⟨f3, e.fr, e.bk, cc, true⟩)
          (mapWires (cutWire eid ⟨f1, e.fr, v, c1, true⟩ ⟨f1 + 1, v, e.bk, c2, true⟩)
            sol), true) := by
      rw [removeVertex_eval invC concatC v.id f3 _ x y cc hdeg hfp hcc2, hx', hy']
    have h2 : Solid.removeVertexByConcatEdges invC concatC v.id f3
        (Solid.cutEdge cutC eid v f1 sol).1 =
        (mapWires (fuseInWire v.id ⟨f3, e.fr, e.bk, cc, true⟩)
          (mapWires (cutWire eid ⟨f1, e.fr, v, c1, true⟩ ⟨f1 + 1, v, e.bk, c2, true⟩)
            sol), true) := by
      rw [h1]
      exact hrm
    have hM : mapWires (fuseInWire v.id ⟨f3, e.fr, e.bk, cc, true⟩)
        (mapWires (cutWire eid ⟨f1, e.fr, v, c1, true⟩ ⟨f1 + 1, v, e.bk, c2, true⟩)
          sol) =
        mapWires (fun w => w.map fun z => if z.id = eid then
            (if z.ori then (⟨f3, e.fr, e.bk, cc, true⟩ : Edg P C)
             else (⟨f3, e.fr, e.bk, cc, true⟩ : Edg P C).inverse)
          else z) sol := by
      rw [mapWires_mapWires]
      refine mapWires_congr fun w hw => ?_
      exact fuseInWire_cutWire eid e.fr e.bk v f1 (f1 + 1) c1 c2
        ⟨f3, e.fr, e.bk, cc, true⟩ w
        (fun z hz => hv z (mem_solidEdges_of_mem_wire hw hz))
    have hshape1 : solidShape
        (mapWires (cutWire eid ⟨f1, e.fr, v, c1, true⟩ ⟨f1 + 1, v, e.bk, c2, true⟩)
          sol) = splitSolidShape eid v.id sol := by
      refine solidShape_mapWires fun w hw => ?_
      exact wireShape_cutWire eid e.fr e.bk v f1 (f1 + 1) c1 c2 w
        (fun z hz hze => hWFwire w hw z hz hze)
    have hshape2 : solidShape
        (mapWires (fuseInWire v.id ⟨f3, e.fr, e.bk, cc, true⟩)
          (mapWires (cutWire eid ⟨f1, e.fr, v, c1, true⟩ ⟨f1 + 1, v, e.bk, c2, true⟩)
            sol)) = solidShape sol := by
      rw [hM]
      refine solidShape_mapWires fun w hw => ?_
      exact wireShape_map_subst eid e.fr e.bk f3 cc w
        (fun z hz hze => hWFwire w hw z hz hze)
    have hvert : vertexIdList
        (mapWires (fuseInWire v.id ⟨f3, e.fr, e.bk, cc, true⟩)
          (mapWires (cutWire eid ⟨f1, e.fr, v, c1, true⟩ ⟨f1 + 1, v, e.bk, c2, true⟩)
            sol)) = vertexIdList sol := by
      rw [hM]
      refine vertexIdList_mapWires_map _ sol fun z hz => ?_
      by_cases hid : z.id = eid
      · obtain ⟨hfr, hbk⟩ := hWF z hz hid
        rw [if_pos hid]
        cases hoz : z.ori with
        | true =>
          rw [if_pos rfl]
          exact ⟨by rw [hfr], by rw [hbk]⟩
        | false =>
          rw [if_neg Bool.false_ne_true]
          exact ⟨by simp [hfr], by simp [hbk]⟩
      · rw [if_neg hid]
        exact ⟨rfl, rfl⟩
    have hedge : edgeIdList
        (mapWires (fuseInWire v.id ⟨f3, e.fr, e.bk, cc, true⟩)
          (mapWires (cutWire eid ⟨f1, e.fr, v, c1, true⟩ ⟨f1 + 1, v, e.bk, c2, true⟩)
            sol)) = (edgeIdList sol).map fun i => if i = eid then f3 else i := by
      rw [hM]
      refine edgeIdList_mapWires_map _ _ sol fun z hz => ?_
      by_cases hid : z.id = eid
      · rw [if_pos hid, if_pos hid]
        cases z.ori <;> rfl
      · rw [if_neg hid, if_neg hid]
    have hdedup : (edgeIdList
        (mapWires (fuseInWire v.id ⟨f3, e.fr, e.bk, cc, true⟩)
          (mapWires (cutWire eid ⟨f1, e.fr, v, c1, true⟩ ⟨f1 + 1, v, e.bk, c2, true⟩)
            sol))).dedup.length = (edgeIdList sol).dedup.length := by
      rw [hedge]
      refine dedup_length_map_injOn fun i hi j hj hij => ?_
      by_cases hi' : i = eid <;> by_cases hj' : j = eid
      · rw [hi', hj']
      · rw [if_pos hi', if_neg hj'] at hij
        exact absurd (by rw [hij]; exact hj : f3 ∈ edgeIdList sol) hf3
      · rw [if_neg hi', if_pos hj'] at hij
        exact absurd (by rw [← hij]; exact hi : f3 ∈ edgeIdList sol) hf3
      · rw [if_neg hi', if_neg hj'] at hij
        exact hij
    have hnf1 : numFaces
        (mapWires (cutWire eid ⟨f1, e.fr, v, c1, true⟩ ⟨f1 + 1, v, e.bk, c2, true⟩)
          sol) = numFaces sol := numFaces_mapWires _ sol
    have hnf2 : numFaces
        (mapWires (fuseInWire v.id ⟨f3, e.fr, e.bk, cc, true⟩)
          (mapWires (cutWire eid ⟨f1, e.fr, v, c1, true⟩ ⟨f1 + 1, v, e.bk, c2, true⟩)
            sol)) = numFaces sol := by
      rw [numFaces_mapWires, numFaces_mapWires]
    unfold CutConcatRoundTrip
    rw [h2, h1]
    exact ⟨rfl, rfl, hshape1, hshape2, hvert, hdedup, hnf1, hnf2⟩

/-- Concrete curve-cutting callback for the round-trip witness. -/
def cutC8 : Unit → Option (Unit × Unit) := fun _ => some ((), ())

/-- Concrete curve inversion callback for the round-trip witness. -/
def invC8 : Unit → Unit := fun c => c

/-- Concrete curve concatenation callback for the round-trip witness. -/
def concatC8 : Unit → Unit → Option Unit := fun _ _ => some ()

/-- The fresh cut vertex of the round-trip witness. -/
def vC8 : Vtx Unit := ⟨9, ()⟩

/-- The edge cut and re-fused by the round-trip witness. -/
def eC8 : Edg Unit Unit := ⟨7, ⟨0, ()⟩, ⟨1, ()⟩, (), true⟩

/-- One-shell, one-face, one-wire solid for the round-trip witness. -/
def solC8 : SolidT Unit Unit Unit := [[⟨[[eC8]], (), true⟩]]

theorem cut_then_concat_roundtrip_witness :
    CutConcatRoundTrip cutC8 invC8 concatC8 7 vC8 20 30 solC8 := by
  refine cut_then_concat_roundtrip cutC8 invC8 concatC8 7 vC8 20 30 solC8 eC8
    () () () rfl rfl rfl ?_ ?_ ?_
  · intro z hz
    have hz' : z = eC8 := by
      have hse : solidEdges solC8 = [eC8] := rfl
      rw [hse] at hz
      exact List.mem_singleton.mp hz
    subst hz'
    exact ⟨by decide, by decide⟩
  · intro z hz _
    have hz' : z = eC8 := by
      have hse : solidEdges solC8 = [eC8] := rfl
      rw [hse] at hz
      exact List.mem_singleton.mp hz
    subst hz'
    exact ⟨rfl, rfl⟩
  · decide


end Truck
